import Mathlib

/-!
# In-memory message queue: the queue engine, the registry and the tenant keys

A shallow embedding of `internal/queue/queue.go`, `internal/broker/broker.go`,
`internal/broker/authanticated-broker.go` and `internal/auth/auth.go`.

* `time.Time` and `time.Duration` are integers (nanoseconds on one clock);
  `t.Add(d)` is `t + d`, `now.After(t)` is `t < now`, `time.Until(t)` is `t - now`.
* `DeliveryCount` and `maxDeliveryCount` are Go `int`s, here `Int`.  The counter only
  moves by `+1` per claim attempt.  `claimLoop` adds 1 without wrapping; `claimLoop64`
  wraps at 64 bits as the machine does.  The two agree unless a popped count is the
  largest `int`, which no run from a new queue with `maxDeliveryCount` below the largest
  `int` produces (`claimLoop64_eq_claimLoop`, `execAll64_eq_execAll`).
* `*Message` values are copied: every pointer lives in exactly one collection.
* `map[string]*Message` is an association list; Go leaves the iteration order of a
  map unspecified, so the reclamation scan takes the order as an argument.
* Every `time.Now()` read is an argument: `Claim` reads the clock once per loop
  iteration, iteration `i` reads `clock i`.
-/

namespace Queue

/-- The Go struct `Message`. -/
structure Message where
  ID : String
  Payload : List UInt8
  CreatedAt : Int
  DeliveryCount : Int
  VisibilityDeadline : Int
  deriving DecidableEq

/-- The Go struct `QueueStats`. -/
structure QueueStats where
  Pending : Nat
  InFlight : Nat
  DeadLetter : Nat
  deriving DecidableEq

/-- A Go `map[string]*Message`, as an association list. -/
abbrev MsgMap := List (String × Message)

/-- The keys of a map. -/
def mapKeys (m : MsgMap) : List String := m.map Prod.fst

/-- Go `v, ok := m[k]`. -/
def mapGet (k : String) : MsgMap → Option Message
  | [] => none
  | (k1, v) :: rest => if k1 = k then some v else mapGet k rest

/-- Go `delete(m, k)`. -/
def mapDelete (k : String) (m : MsgMap) : MsgMap :=
  m.filter (fun e => decide (e.1 ≠ k))

/-- Go `m[k] = v`: the entry under `k`, if any, is replaced. -/
def mapSet (k : String) (v : Message) (m : MsgMap) : MsgMap :=
  mapDelete k m ++ [(k, v)]

/-- The Go struct `InMemoryQueue` (the mutex and the condition variable carry no data). -/
structure InMemoryQueue where
  name : String
  pending : List Message
  inFlight : MsgMap
  deadLetter : List Message
  maxDeliveryCount : Int
  leaseDuration : Int
  deriving DecidableEq

/-- The zero value of `time.Time`, the `VisibilityDeadline` of a message never claimed. -/
def zeroTime : Int := 0

/-- `NewInMemoryQueue`: three empty collections and the two settings.  The goroutine it
starts is the reclamation scan `requeueTick`, which may run at any later point. -/
def NewInMemoryQueue (name : String) (lease : Int) (maxDelivery : Int) : InMemoryQueue :=
  { name := name, pending := [], inFlight := [], deadLetter := [],
    leaseDuration := lease, maxDeliveryCount := maxDelivery }

/-- `Publish`: `gen` is what `generateMessageID` returned, `now` the clock read for
`CreatedAt`.  The result is the pair of the Go return value and the queue afterwards. -/
def Publish (gen : Except String String) (payload : List UInt8) (now : Int)
    (q : InMemoryQueue) : Except String String × InMemoryQueue :=
  match gen with
  | .error err => (.error err, q)
  | .ok id =>
    let msg : Message :=
      { ID := id, Payload := payload, CreatedAt := now, DeliveryCount := 0,
        VisibilityDeadline := zeroTime }
    (.ok id, { q with pending := q.pending ++ [msg] })

/-- How one pass of `Claim` under the lock ends: it returns to the caller (a message or
the timeout error), or it suspends the caller in `q.cond.Wait()`. -/
inductive ClaimStep where
  | returned (r : Except String Message)
  | waits

/-- The error `Claim` returns when the deadline has passed and nothing is pending. -/
def errTimeout : String := "timeout: no messages available"

/-- The `for` loop of `Claim`, from the iteration numbered `i` on.  The list argument is
`q.pending` (the loop recurses on it: each iteration pops its head and stores the rest
back into `q.pending`).  The increment of line 94 is `+ 1` on `Int`: this is the loop on
counts below the largest `int`; `claimLoop64` has the wrap. -/
def claimLoop (deadline : Int) (clock : Nat → Int) :
    List Message → Nat → InMemoryQueue → ClaimStep × InMemoryQueue
  | [], i, q =>
    let remaining := deadline - clock i
    if remaining ≤ 0 then (.returned (.error errTimeout), q) else (.waits, q)
  | m :: rest, i, q =>
    let msg : Message :=
      { m with DeliveryCount := m.DeliveryCount + 1,
               VisibilityDeadline := clock i + q.leaseDuration }
    if msg.DeliveryCount > q.maxDeliveryCount then
      claimLoop deadline clock rest (i + 1)
        { q with pending := rest, deadLetter := q.deadLetter ++ [msg] }
    else
      (.returned (.ok msg),
        { q with pending := rest, inFlight := mapSet msg.ID msg q.inFlight })

/-- `Claim`: one pass under the lock, from the call (or from a wake-up) to the return or
to the next `q.cond.Wait()`.  `start` is the clock read for the deadline. -/
def Claim (start wait : Int) (clock : Nat → Int) (q : InMemoryQueue) :
    ClaimStep × InMemoryQueue :=
  claimLoop (start + wait) clock q.pending 0 q

/-- `Ack`. -/
def Ack (messageID : String) (q : InMemoryQueue) : Except String Unit × InMemoryQueue :=
  match mapGet messageID q.inFlight with
  | none => (.error ("message not found in-flight: " ++ messageID), q)
  | some _ => (.ok (), { q with inFlight := mapDelete messageID q.inFlight })

/-- `Stats`. -/
def Stats (q : InMemoryQueue) : QueueStats × InMemoryQueue :=
  ({ Pending := q.pending.length, InFlight := q.inFlight.length,
     DeadLetter := q.deadLetter.length }, q)

/-- The `batchSize` of `requeueExpired`. -/
def batchSize : Nat := 100

/-- The `range q.inFlight` loop of `requeueExpired` for one tick: `ids` are the keys still
to visit, in the order the map yields them, `cnt` the entries requeued so far. -/
def requeueLoop (now : Int) : List String → Nat → InMemoryQueue → InMemoryQueue
  | [], _, q => q
  | id :: ids, cnt, q =>
    if cnt ≥ batchSize then q
    else
      match mapGet id q.inFlight with
      | none => requeueLoop now ids cnt q
      | some msg =>
        if msg.VisibilityDeadline < now then
          let q1 := { q with inFlight := mapDelete id q.inFlight }
          let q2 :=
            if msg.DeliveryCount > q.maxDeliveryCount then
              { q1 with deadLetter := q1.deadLetter ++ [msg] }
            else
              { q1 with pending := q1.pending ++ [msg] }
          requeueLoop now ids (cnt + 1) q2
        else requeueLoop now ids cnt q

/-- One tick of `requeueExpired` at time `now`; `order` is the order in which the map
iteration yields the keys of `q.inFlight`. -/
def requeueTick (now : Int) (order : List String) (q : InMemoryQueue) : InMemoryQueue :=
  requeueLoop now order 0 q

/-! ## Executions

A queue is used through calls of `Publish`, `Claim`, `Ack`, `Stats` and through the ticks
of its reclamation goroutine, all serialised by `q.mu`.  `Sys` pairs the queue with the
record of what the calls returned so far. -/

/-- One critical section on a queue. -/
inductive Op where
  | publish (gen : Except String String) (payload : List UInt8) (now : Int)
  | claim (start wait : Int) (clock : Nat → Int)
  | ack (messageID : String)
  | stats
  | tick (now : Int) (order : List String)

/-- A queue together with the history of its calls: the ids returned by the successful
`Publish` calls, the ids of the successful `Ack` calls, and the ids of the messages
returned by `Claim`, each in call order. -/
structure Sys where
  q : InMemoryQueue
  published : List String
  acked : List String
  delivered : List String
  deriving DecidableEq

/-- A new queue, nothing called yet. -/
def Sys.init (name : String) (lease : Int) (maxDelivery : Int) : Sys :=
  { q := NewInMemoryQueue name lease maxDelivery, published := [], acked := [],
    delivered := [] }

/-- Run one operation and record what it returned. -/
def exec : Op → Sys → Sys
  | .publish gen payload now, s =>
    match Publish gen payload now s.q with
    | (.ok id, q1) => { s with q := q1, published := s.published ++ [id] }
    | (.error _, q1) => { s with q := q1 }
  | .claim start wait clock, s =>
    match Claim start wait clock s.q with
    | (.returned (.ok m), q1) => { s with q := q1, delivered := s.delivered ++ [m.ID] }
    | (_, q1) => { s with q := q1 }
  | .ack messageID, s =>
    match Ack messageID s.q with
    | (.ok _, q1) => { s with q := q1, acked := s.acked ++ [messageID] }
    | (.error _, q1) => { s with q := q1 }
  | .stats, s => { s with q := (Stats s.q).2 }
  | .tick now order, s => { s with q := requeueTick now order s.q }

/-- What the environment may do in state `s`: `generateMessageID` "creates a unique ID",
so a successful `Publish` returns an id no earlier `Publish` returned; and the iteration
of a tick visits every key of `inFlight` exactly once. -/
def ValidOp (s : Sys) : Op → Prop
  | .publish (.ok id) _ _ => id ∉ s.published
  | .tick _ order => order.Perm (mapKeys s.q.inFlight)
  | _ => True

/-- The states a new queue can reach. -/
inductive Reachable : Sys → Prop where
  | init (name : String) (lease maxDelivery : Int) :
      Reachable (Sys.init name lease maxDelivery)
  | step {s : Sys} (op : Op) : Reachable s → ValidOp s op → Reachable (exec op s)

/-- Run a list of operations, first to last. -/
def execAll : List Op → Sys → Sys
  | [], s => s
  | op :: ops, s => execAll ops (exec op s)

/-- Run `Claim` once per entry of `calls` (its `start`, `wait` and clock) and collect what
each pass ended with. -/
def claimAll : List (Int × Int × (Nat → Int)) → InMemoryQueue →
    List ClaimStep × InMemoryQueue
  | [], q => ([], q)
  | (start, wait, clock) :: calls, q =>
    let r := Claim start wait clock q
    let rs := claimAll calls r.2
    (r.1 :: rs.1, rs.2)

/-- Run `Publish` once per entry of `calls` (the generated id, the payload, the clock). -/
def publishAll : List (String × List UInt8 × Int) → InMemoryQueue → InMemoryQueue
  | [], q => q
  | (id, payload, now) :: calls, q => publishAll calls (Publish (.ok id) payload now q).2

/-! ## A caller suspended in `q.cond.Wait()`

`Claim` suspends in `q.cond.Wait()` (line 110), which takes no timeout: the caller runs
again only when another goroutine calls `q.cond.Signal()`.  The source calls `Signal` in
`Publish` (line 79) and in `requeueExpired` for each message moved back to `pending`
(line 155), and nowhere else. -/

/-- Whether running `op` on `q` calls `q.cond.Signal()`. -/
def signals (op : Op) (q : InMemoryQueue) : Bool :=
  match op with
  | .publish (.ok _) _ _ => true
  | .tick now order => decide ((requeueTick now order q).pending ≠ q.pending)
  | _ => false

/-- A call of `Claim`: suspended in `q.cond.Wait()` holding its local `deadline`, or
returned. -/
inductive Call where
  | parked (deadline : Int)
  | finished (r : Except String Message)

/-- The call runs the loop again after a wake-up. -/
def resume (deadline : Int) (clock : Nat → Int) (q : InMemoryQueue) :
    Call × InMemoryQueue :=
  match claimLoop deadline clock q.pending 0 q with
  | (.returned r, q1) => (.finished r, q1)
  | (.waits, q1) => (.parked deadline, q1)

/-- Another goroutine runs `op` while the call is in state `c`; `clock` is what the call
reads if it is woken. -/
def stepCall (op : Op) (clock : Nat → Int) :
    Call × InMemoryQueue → Call × InMemoryQueue
  | (.finished r, q) => (.finished r, (exec op ⟨q, [], [], []⟩).q)
  | (.parked d, q) =>
    let q1 := (exec op ⟨q, [], [], []⟩).q
    if signals op q then resume d clock q1 else (.parked d, q1)

/-- The events after the call was parked, first to last, each with the time at which it
happens: the call does not look at the time while it is parked. -/
def runCall (clock : Nat → Int) :
    List (Op × Int) → Call × InMemoryQueue → Call × InMemoryQueue
  | [], c => c
  | (op, _) :: evs, c => runCall clock evs (stepCall op clock c)

/-- No event of the list calls `q.cond.Signal()`: no successful `Publish` and no tick that
moves a message back to `pending`. -/
def Quiet : List (Op × Int) → InMemoryQueue → Prop
  | [], _ => True
  | (op, _) :: evs, q => signals op q = false ∧ Quiet evs (exec op ⟨q, [], [], []⟩).q

/-- The message `Publish` builds from a generated id, a payload and the clock. -/
def freshMessage (c : String × List UInt8 × Int) : Message :=
  { ID := c.1, Payload := c.2.1, CreatedAt := c.2.2, DeliveryCount := 0,
    VisibilityDeadline := zeroTime }

/-- A list of operations each of which the environment may do when its turn comes. -/
def ValidTrace : Sys → List Op → Prop
  | _, [] => True
  | s, op :: ops => ValidOp s op ∧ ValidTrace (exec op s) ops

/-- The ids of a list of messages. -/
def ids (l : List Message) : List String := l.map Message.ID

/-- The ids held by the three collections: `pending`, then `inFlight`, then
`deadLetter`. -/
def allIds (q : InMemoryQueue) : List String :=
  ids q.pending ++ (mapKeys q.inFlight ++ ids q.deadLetter)

/-- What every reachable state satisfies.  `bal` and `pubNodup` place every id published
and not acked in exactly one collection; `pend`, `infl` and `dead` relate the
`DeliveryCount` of a message to the number of times `Claim` returned it. -/
structure Inv (s : Sys) : Prop where
  bal : ∀ id, (allIds s.q).count id + s.acked.count id = s.published.count id
  pubNodup : s.published.Nodup
  keyed : ∀ e ∈ s.q.inFlight, e.2.ID = e.1
  delPub : ∀ id ∈ s.delivered, id ∈ s.published
  pend : ∀ m ∈ s.q.pending, m.DeliveryCount = s.delivered.count m.ID ∧
    (m.DeliveryCount = 0 ∨ m.DeliveryCount ≤ s.q.maxDeliveryCount)
  infl : ∀ e ∈ s.q.inFlight, e.2.DeliveryCount = s.delivered.count e.2.ID ∧
    1 ≤ e.2.DeliveryCount ∧ e.2.DeliveryCount ≤ s.q.maxDeliveryCount
  dead : ∀ m ∈ s.q.deadLetter, m.DeliveryCount = s.delivered.count m.ID + 1 ∧
    s.q.maxDeliveryCount < m.DeliveryCount
  bound : ∀ id, s.delivered.count id = 0 ∨
    (s.delivered.count id : Int) ≤ s.q.maxDeliveryCount

/-- A sample run on a queue with a lease of 30 and `maxDeliveryCount = 1`: two messages
are published and claimed, `"b"` is acked, the lease of `"a"` expires, a tick requeues
it, and the next `Claim` finds it over the threshold. -/
def sampleOps : List Op :=
  [ .publish (.ok "a") [1] 0, .publish (.ok "b") [2] 1,
    .claim 2 0 (fun _ => 2), .claim 3 0 (fun _ => 3), .ack "b",
    .tick 40 ["a"], .claim 41 0 (fun _ => 41) ]

/-- The state after `sampleOps`. -/
def sampleSys : Sys := execAll sampleOps (Sys.init "q" 30 1)

/-- Whether `inFlight` holds under `k` a message whose deadline is before `now`. -/
def expired (now : Int) (q : InMemoryQueue) (k : String) : Bool :=
  match mapGet k q.inFlight with
  | some msg => decide (msg.VisibilityDeadline < now)
  | none => false

/-- The state of `sampleSys` before its last `Claim`: `"a"` is back in `pending`, already
returned once. -/
def sampleMid : Sys := execAll (sampleOps.take 6) (Sys.init "q" 30 1)

/-- Two messages published and claimed at time 0 on a queue with a lease of 30 and
`maxDeliveryCount = 3`, neither acked. -/
def twoInFlight : Sys :=
  execAll [ .publish (.ok "a") [1] 0, .publish (.ok "b") [2] 0,
            .claim 0 0 (fun _ => 0), .claim 0 0 (fun _ => 0) ] (Sys.init "q" 30 3)

/-! ## The claim loop and the tick, as the specification words them -/

/-- Whether a claim attempt dead-letters `m`: its count has already reached the
maximum, so the incremented count exceeds it. -/
def poisoned (maxDelivery : Int) (m : Message) : Bool :=
  decide (m.DeliveryCount ≥ maxDelivery)

/-- The message as iteration `i` of the claim loop leaves it: count one higher, deadline
set from the clock read in that iteration. -/
def bump (clock : Nat → Int) (lease : Int) (i : Nat) (m : Message) : Message :=
  { m with DeliveryCount := m.DeliveryCount + 1, VisibilityDeadline := clock i + lease }

/-- The messages of `ms` as popped by the iterations `i`, `i + 1`, … in order. -/
def bumpFrom (clock : Nat → Int) (lease : Int) : Nat → List Message → List Message
  | _, [] => []
  | i, m :: ms => bump clock lease i m :: bumpFrom clock lease (i + 1) ms

/-- The claim algorithm in the words of the specification, started at iteration `i`: the
longest poisoned prefix of `pending` goes to the tail of `deadLetter`; the message behind
it, if any, is stored in `inFlight` and returned; otherwise `pending` is empty and the
call times out or waits. -/
def claimSpec (deadline : Int) (clock : Nat → Int) (i : Nat) (q : InMemoryQueue) :
    ClaimStep × InMemoryQueue :=
  let pre := q.pending.takeWhile (poisoned q.maxDeliveryCount)
  let dead := q.deadLetter ++ bumpFrom clock q.leaseDuration i pre
  match q.pending.dropWhile (poisoned q.maxDeliveryCount) with
  | [] =>
    (if deadline - clock (i + pre.length) ≤ 0 then .returned (.error errTimeout) else .waits,
      { q with pending := [], deadLetter := dead })
  | m :: rest =>
    (.returned (.ok (bump clock q.leaseDuration (i + pre.length) m)),
      { q with pending := rest, deadLetter := dead,
               inFlight := mapSet m.ID (bump clock q.leaseDuration (i + pre.length) m)
                 q.inFlight })

/-- The keys one tick removes from `inFlight` when it visits the keys in `order` with
`cnt` entries already requeued: the expired ones, up to the batch size. -/
def reclaimed (now : Int) (order : List String) (cnt : Nat) (q : InMemoryQueue) :
    List String :=
  (order.filter (expired now q)).take (batchSize - cnt)

/-- The reclamation tick in the words of the specification: the reclaimed entries leave
`inFlight`; in the order visited, those within the threshold go to the tail of `pending`
and the others to the tail of `deadLetter`. -/
def tickSpec (now : Int) (order : List String) (cnt : Nat) (q : InMemoryQueue) :
    InMemoryQueue :=
  let gone := reclaimed now order cnt q
  let moved := gone.filterMap (fun k => mapGet k q.inFlight)
  { q with
    inFlight := q.inFlight.filter (fun e => decide (e.1 ∉ gone)),
    pending := q.pending ++
      moved.filter (fun m => decide (¬ (m.DeliveryCount > q.maxDeliveryCount))),
    deadLetter := q.deadLetter ++
      moved.filter (fun m => decide (m.DeliveryCount > q.maxDeliveryCount)) }

/-- The bounds on delivery counts that hold along every run: a pending message was never
claimed or stays within the threshold, an in-flight message was claimed at least once and
stays within the threshold. -/
def CountsOk (q : InMemoryQueue) : Prop :=
  (∀ m ∈ q.pending, m.DeliveryCount = 0 ∨
    (1 ≤ m.DeliveryCount ∧ m.DeliveryCount ≤ q.maxDeliveryCount)) ∧
  (∀ e ∈ q.inFlight, 1 ≤ e.2.DeliveryCount ∧ e.2.DeliveryCount ≤ q.maxDeliveryCount)

/-- Whether the operation is a pass of `Claim`. -/
def Op.isClaim : Op → Bool
  | .claim _ _ _ => true
  | _ => false

/-! ## Tenant keys (`internal/auth/auth.go`)

The auth code calls `base64.RawURLEncoding`, `sha256.Sum256`, `hmac.Equal` and
`strings.Cut` of the Go standard library.  The codec and the hash are arguments of the
functions below; `hmac.Equal` is equality of byte sequences; `strings.Cut` is `cutDot`. -/

/-- Go `v, ok := m[k]` on a map with string keys. -/
def kvGet {α : Type} (k : String) : List (String × α) → Option α
  | [] => none
  | (k1, v) :: rest => if k1 = k then some v else kvGet k rest

/-- Go `delete(m, k)` on a map with string keys. -/
def kvDelete {α : Type} (k : String) (m : List (String × α)) : List (String × α) :=
  m.filter (fun e => decide (e.1 ≠ k))

/-- Go `m[k] = v` on a map with string keys. -/
def kvSet {α : Type} (k : String) (v : α) (m : List (String × α)) : List (String × α) :=
  kvDelete k m ++ [(k, v)]

/-- The two functions of `base64.RawURLEncoding` the auth code calls. -/
structure Codec where
  EncodeToString : List UInt8 → String
  DecodeString : String → Option (List UInt8)

/-- What the auth code relies on: decoding an encoded byte sequence gives it back, and
the URL alphabet has no `.`. -/
structure Codec.Lawful (c : Codec) : Prop where
  decode_encode : ∀ b : List UInt8, c.DecodeString (c.EncodeToString b) = some b
  no_dot : ∀ b : List UInt8, '.' ∉ (c.EncodeToString b).toList

/-- Go `strings.Cut(s, ".")`: the text before and the text after the first `.`, when
there is one. -/
def cutDot (s : String) : Option (String × String) :=
  match s.toList.span (fun c => c != '.') with
  | (_, []) => none
  | (before, _ :: after) => some (String.mk before, String.mk after)

/-- The Go struct `keyRecord`. -/
structure keyRecord where
  KeyID : String
  Hash : String
  TenantID : String
  deriving DecidableEq

/-- The Go struct `AuthManager`. -/
structure AuthManager where
  Keys : List (String × keyRecord)
  deriving DecidableEq

/-- `NewAuthManager`. -/
def NewAuthManager : AuthManager := { Keys := [] }

/-- `AuthManager.CreateKey`: `rndSecret` and `rndKeyID` are what the two calls of
`rand.Read` produce (the 16 bytes of the secret, the 8 bytes of the key id). -/
def AuthManager.CreateKey (c : Codec) (sum256 : List UInt8 → List UInt8)
    (rndSecret rndKeyID : Except String (List UInt8)) (tenantID : String)
    (a : AuthManager) : Except String String × AuthManager :=
  match rndSecret with
  | .error err => (.error ("failed to generate secret: " ++ err), a)
  | .ok secret =>
    match rndKeyID with
    | .error err => (.error ("failed to generate keyID: " ++ err), a)
    | .ok keyIDBytes =>
      let keyID := c.EncodeToString keyIDBytes
      let hash := sum256 secret
      let encodedHash := c.EncodeToString hash
      let a1 : AuthManager :=
        { Keys := kvSet keyID { KeyID := keyID, TenantID := tenantID, Hash := encodedHash }
            a.Keys }
      let secretStr := c.EncodeToString secret
      (.ok (keyID ++ "." ++ secretStr), a1)

/-- `AuthManager.ValidateKey`: the key id, the tenant id and whether the token is
valid. -/
def AuthManager.ValidateKey (c : Codec) (sum256 : List UInt8 → List UInt8) (token : String)
    (a : AuthManager) : String × String × Bool :=
  match cutDot token with
  | none => ("", "", false)
  | some (kid, secretStr) =>
    match c.DecodeString secretStr with
    | none => ("", "", false)
    | some secret =>
      match kvGet kid a.Keys with
      | none => ("", "", false)
      | some record =>
        let hash := sum256 secret
        match c.DecodeString record.Hash with
        | none => ("", "", false)
        | some expected =>
          if hash = expected then (kid, record.TenantID, true) else ("", "", false)

/-- `AuthManager.RevokeKey`. -/
def AuthManager.RevokeKey (kid : String) (a : AuthManager) :
    Except String Unit × AuthManager :=
  match kvGet kid a.Keys with
  | none => (.error "key not found", a)
  | some _ => (.ok (), { Keys := kvDelete kid a.Keys })

/-! ## The registry (`internal/broker/broker.go`)

The registry maps a name to a pointer to a queue.  A queue object is the entry stored
under its name: a method called on the pointer rewrites that entry (`Broker.store`). -/

/-- The Go struct `Broker`. -/
structure Broker where
  queues : List (String × InMemoryQueue)
  maxDelivery : Int
  leaseDuration : Int
  deriving DecidableEq

/-- `NewBroker`. -/
def NewBroker (leaseDuration : Int) (maxDelivery : Int) : Broker :=
  { queues := [], maxDelivery := maxDelivery, leaseDuration := leaseDuration }

/-- `Broker.getQueue`: the queue registered under the name, registered first when there
is none. -/
def Broker.getQueue (fullQueueName : String) (b : Broker) : InMemoryQueue × Broker :=
  match kvGet fullQueueName b.queues with
  | some q => (q, b)
  | none =>
    let q := NewInMemoryQueue fullQueueName b.leaseDuration b.maxDelivery
    (q, { b with queues := kvSet fullQueueName q b.queues })

/-- The queue object registered under `fullQueueName` is now in state `q`. -/
def Broker.store (fullQueueName : String) (q : InMemoryQueue) (b : Broker) : Broker :=
  { b with queues := kvSet fullQueueName q b.queues }

/-- `Broker.Publish`. -/
def Broker.Publish (fullQueueName : String) (gen : Except String String)
    (payload : List UInt8) (now : Int) (b : Broker) : Except String String × Broker :=
  let r := b.getQueue fullQueueName
  let p := Queue.Publish gen payload now r.1
  (p.1, r.2.store fullQueueName p.2)

/-- `Broker.Claim` (one pass of the queue's `Claim`). -/
def Broker.Claim (fullQueueName : String) (start wait : Int) (clock : Nat → Int)
    (b : Broker) : ClaimStep × Broker :=
  let r := b.getQueue fullQueueName
  let p := Queue.Claim start wait clock r.1
  (p.1, r.2.store fullQueueName p.2)

/-- `Broker.Ack`. -/
def Broker.Ack (fullQueueName : String) (messageID : String) (b : Broker) :
    Except String Unit × Broker :=
  let r := b.getQueue fullQueueName
  let p := Queue.Ack messageID r.1
  (p.1, r.2.store fullQueueName p.2)

/-- `Broker.Stats`. -/
def Broker.Stats (fullQueueName : String) (b : Broker) : QueueStats × Broker :=
  let r := b.getQueue fullQueueName
  let p := Queue.Stats r.1
  (p.1, r.2.store fullQueueName p.2)

/-! ## The authenticated broker (`internal/broker/authanticated-broker.go`) -/

/-- The Go struct `AuthenticatedBroker`. -/
structure AuthenticatedBroker where
  broker : Broker
  Auth : AuthManager
  deriving DecidableEq

/-- `NewAuthenticatedBroker`. -/
def NewAuthenticatedBroker (b : Broker) (a : AuthManager) : AuthenticatedBroker :=
  { broker := b, Auth := a }

/-- The error `ErrUnauthorized`. -/
def ErrUnauthorized : String := "unauthorized: invalid API key"

/-- `AuthenticatedBroker.ValidateAndGetQueueName`. -/
def AuthenticatedBroker.ValidateAndGetQueueName (c : Codec)
    (sum256 : List UInt8 → List UInt8) (apiKey queueName : String)
    (ab : AuthenticatedBroker) : Except String String :=
  let r := ab.Auth.ValidateKey c sum256 apiKey
  if r.2.2 = false then .error ErrUnauthorized
  else
    let fullQueueName := r.2.1 ++ ":" ++ queueName
    .ok fullQueueName

/-- `AuthenticatedBroker.Publish`. -/
def AuthenticatedBroker.Publish (c : Codec) (sum256 : List UInt8 → List UInt8)
    (apiKey queueName : String) (gen : Except String String) (payload : List UInt8)
    (now : Int) (ab : AuthenticatedBroker) : Except String String × AuthenticatedBroker :=
  match ab.ValidateAndGetQueueName c sum256 apiKey queueName with
  | .error err => (.error err, ab)
  | .ok fullQueueName =>
    let r := ab.broker.Publish fullQueueName gen payload now
    (r.1, { ab with broker := r.2 })

/-- Go `int64` arithmetic wraps: the value of `x` as a 64-bit signed integer. -/
def wrapInt64 (x : Int) : Int :=
  (x + 9223372036854775808) % 18446744073709551616 - 9223372036854775808

/-- `AuthenticatedBroker.Claim`: the wait is `time.Duration(waitSeconds) * time.Second`,
an `int64` count of nanoseconds. -/
def AuthenticatedBroker.Claim (c : Codec) (sum256 : List UInt8 → List UInt8)
    (apiKey queueName : String) (waitSeconds : Int) (start : Int) (clock : Nat → Int)
    (ab : AuthenticatedBroker) : ClaimStep × AuthenticatedBroker :=
  match ab.ValidateAndGetQueueName c sum256 apiKey queueName with
  | .error err => (.returned (.error err), ab)
  | .ok fullQueueName =>
    let r := ab.broker.Claim fullQueueName start (wrapInt64 (waitSeconds * 1000000000)) clock
    (r.1, { ab with broker := r.2 })

/-- `AuthenticatedBroker.Ack`. -/
def AuthenticatedBroker.Ack (c : Codec) (sum256 : List UInt8 → List UInt8)
    (apiKey queueName messageID : String) (ab : AuthenticatedBroker) :
    Except String Unit × AuthenticatedBroker :=
  match ab.ValidateAndGetQueueName c sum256 apiKey queueName with
  | .error err => (.error err, ab)
  | .ok fullQueueName =>
    let r := ab.broker.Ack fullQueueName messageID
    (r.1, { ab with broker := r.2 })

/-- `AuthenticatedBroker.Stats`. -/
def AuthenticatedBroker.Stats (c : Codec) (sum256 : List UInt8 → List UInt8)
    (apiKey queueName : String) (ab : AuthenticatedBroker) :
    Except String QueueStats × AuthenticatedBroker :=
  match ab.ValidateAndGetQueueName c sum256 apiKey queueName with
  | .error _ => (.error ErrUnauthorized, ab)
  | .ok fullQueueName =>
    let r := ab.broker.Stats fullQueueName
    (.ok r.1, { ab with broker := r.2 })

/-! ## A codec: base64 with the URL alphabet and no padding

`base64.RawURLEncoding` as RFC 4648 §5 describes it: three bytes give four characters,
a last group of one or two bytes gives two or three characters; the decoder skips line
breaks, as the Go decoder does.  It is the codec of the sample runs. -/

/-- The URL-safe alphabet. -/
def urlAlphabet : List Char :=
  "ABCDEFGHIJKLMNOPQRSTUVWXYZabcdefghijklmnopqrstuvwxyz0123456789-_".toList

/-- The character of a 6-bit value. -/
def encSextet (n : Nat) : Char := urlAlphabet.getD n 'A'

/-- The 6-bit value of a character of the alphabet. -/
def decSextet (c : Char) : Option Nat :=
  let i := urlAlphabet.indexOf c
  if i < 64 then some i else none

/-- Encode bytes, three at a time. -/
def encodeBytes : List UInt8 → List Char
  | b0 :: b1 :: b2 :: rest =>
    encSextet (b0.toNat / 4) :: encSextet (b0.toNat % 4 * 16 + b1.toNat / 16) ::
      encSextet (b1.toNat % 16 * 4 + b2.toNat / 64) :: encSextet (b2.toNat % 64) ::
      encodeBytes rest
  | [b0, b1] =>
    [encSextet (b0.toNat / 4), encSextet (b0.toNat % 4 * 16 + b1.toNat / 16),
      encSextet (b1.toNat % 16 * 4)]
  | [b0] => [encSextet (b0.toNat / 4), encSextet (b0.toNat % 4 * 16)]
  | [] => []

/-- Decode characters, four at a time; a character outside the alphabet or a last group
of one character is an error. -/
def decodeChars : List Char → Option (List UInt8)
  | c0 :: c1 :: c2 :: c3 :: rest =>
    match decSextet c0, decSextet c1, decSextet c2, decSextet c3, decodeChars rest with
    | some s0, some s1, some s2, some s3, some tail =>
      some (UInt8.ofNat (s0 * 4 + s1 / 16) :: UInt8.ofNat (s1 % 16 * 16 + s2 / 4) ::
        UInt8.ofNat (s2 % 4 * 64 + s3) :: tail)
    | _, _, _, _, _ => none
  | [c0, c1, c2] =>
    match decSextet c0, decSextet c1, decSextet c2 with
    | some s0, some s1, some s2 =>
      some [UInt8.ofNat (s0 * 4 + s1 / 16), UInt8.ofNat (s1 % 16 * 16 + s2 / 4)]
    | _, _, _ => none
  | [c0, c1] =>
    match decSextet c0, decSextet c1 with
    | some s0, some s1 => some [UInt8.ofNat (s0 * 4 + s1 / 16)]
    | _, _ => none
  | [_] => none
  | [] => some []

/-- Whether the decoder skips the character: carriage return and line feed. -/
def isLineBreak (c : Char) : Bool := c.toNat = 10 || c.toNat = 13

/-- The codec `base64.RawURLEncoding`. -/
def rawURLEncoding : Codec :=
  { EncodeToString := fun b => String.mk (encodeBytes b),
    DecodeString := fun s => decodeChars (s.toList.filter (fun c => !isLineBreak c)) }

/-- A stand-in for `sha256.Sum256` in the sample runs; what is proved of the auth code
holds for every function in its place. -/
def sampleSum256 (b : List UInt8) : List UInt8 := b.reverse

/-- The authenticated broker after `CreateKey` for the tenants `"a"` and `"a:b"`, on a
broker with a lease of 30 and `maxDeliveryCount = 3`. -/
def sampleBroker : AuthenticatedBroker :=
  let a1 := (NewAuthManager.CreateKey rawURLEncoding sampleSum256
    (.ok [0, 1, 2, 3, 4, 5, 6, 7, 8, 9, 10, 11, 12, 13, 14, 15])
    (.ok [1, 2, 3, 4, 5, 6, 7, 8]) "a").2
  let a2 := (a1.CreateKey rawURLEncoding sampleSum256
    (.ok [16, 17, 18, 19, 20, 21, 22, 23, 24, 25, 26, 27, 28, 29, 30, 31])
    (.ok [9, 10, 11, 12, 13, 14, 15, 16]) "a:b").2
  NewAuthenticatedBroker (NewBroker 30 3) a2

/-! ## The increment of line 94 on a 64-bit `int`

`claimLoop` adds 1 to the count without wrapping.  `claimLoop64` is the same loop with
`msg.DeliveryCount++` as the machine computes it; the two agree whenever no popped count
is the largest `int` (`claimLoop64_eq_claimLoop`), hence along every run from a new queue
whose `maxDeliveryCount` is below the largest `int` (`execAll64_eq_execAll`). -/

/-- The largest Go `int` on a 64-bit platform. -/
def maxInt64 : Int := 9223372036854775807

/-- The smallest Go `int` on a 64-bit platform. -/
def minInt64 : Int := -9223372036854775808

/-- The `for` loop of `Claim` with the increment of line 94 wrapping at 64 bits:
`msg.DeliveryCount++` takes `maxInt64` to `minInt64`. -/
def claimLoop64 (deadline : Int) (clock : Nat → Int) :
    List Message → Nat → InMemoryQueue → ClaimStep × InMemoryQueue
  | [], i, q =>
    let remaining := deadline - clock i
    if remaining ≤ 0 then (.returned (.error errTimeout), q) else (.waits, q)
  | m :: rest, i, q =>
    let msg : Message :=
      { m with DeliveryCount := wrapInt64 (m.DeliveryCount + 1),
               VisibilityDeadline := clock i + q.leaseDuration }
    if msg.DeliveryCount > q.maxDeliveryCount then
      claimLoop64 deadline clock rest (i + 1)
        { q with pending := rest, deadLetter := q.deadLetter ++ [msg] }
    else
      (.returned (.ok msg),
        { q with pending := rest, inFlight := mapSet msg.ID msg q.inFlight })

/-- `Claim` (one pass under the lock) with the 64-bit increment. -/
def Claim64 (start wait : Int) (clock : Nat → Int) (q : InMemoryQueue) :
    ClaimStep × InMemoryQueue :=
  claimLoop64 (start + wait) clock q.pending 0 q

/-- Run one operation and record what it returned, `Claim` with the 64-bit increment. -/
def exec64 : Op → Sys → Sys
  | .claim start wait clock, s =>
    match Claim64 start wait clock s.q with
    | (.returned (.ok m), q1) => { s with q := q1, delivered := s.delivered ++ [m.ID] }
    | (_, q1) => { s with q := q1 }
  | op, s => exec op s

/-- Run a list of operations, first to last, `Claim` with the 64-bit increment. -/
def execAll64 : List Op → Sys → Sys
  | [], s => s
  | op :: ops, s => execAll64 ops (exec64 op s)

/-! ## The map operations -/

theorem mapGet_mapDelete (k id : String) (m : MsgMap) :
    mapGet k (mapDelete id m) = if k = id then none else mapGet k m := by
  induction m with
  | nil => simp [mapDelete, mapGet]
  | cons e rest ih =>
    obtain ⟨k1, v⟩ := e
    simp only [mapDelete] at ih
    by_cases h1 : k1 = id
    · subst h1
      by_cases h2 : k = k1
      · subst h2; simpa [mapDelete, mapGet] using ih
      · have h3 : ¬ k1 = k := fun h => h2 h.symm
        simpa [mapDelete, mapGet, h2, h3] using ih
    · by_cases h2 : k1 = k
      · subst h2; simp [mapDelete, mapGet, h1]
      · simp only [mapDelete, List.filter_cons, ne_eq, h1, not_false_eq_true, decide_True,
          if_true, mapGet, h2, if_false]
        exact ih

theorem mapGet_append_single (k id : String) (v : Message) (m : MsgMap) :
    mapGet k (m ++ [(id, v)]) =
      match mapGet k m with
      | some w => some w
      | none => if id = k then some v else none := by
  induction m with
  | nil => simp [mapGet]
  | cons e rest ih =>
    obtain ⟨k1, w⟩ := e
    by_cases h : k1 = k
    · simp [mapGet, h]
    · simpa [mapGet, h] using ih

theorem mapGet_mapSet (k id : String) (v : Message) (m : MsgMap) :
    mapGet k (mapSet id v m) = if k = id then some v else mapGet k m := by
  rw [mapSet, mapGet_append_single, mapGet_mapDelete]
  by_cases h : k = id
  · subst h; simp
  · have h1 : ¬ id = k := fun e => h e.symm
    simp only [h, if_false, h1]
    cases mapGet k m <;> rfl

theorem mapGet_isSome_iff (k : String) (m : MsgMap) :
    (mapGet k m).isSome = true ↔ k ∈ mapKeys m := by
  induction m with
  | nil => simp [mapGet, mapKeys]
  | cons e rest ih =>
    obtain ⟨k1, v⟩ := e
    by_cases h : k1 = k
    · simp [mapGet, mapKeys, h]
    · have h1 : ¬ k = k1 := fun e => h e.symm
      simp only [mapGet, h, if_false, mapKeys, List.map_cons, List.mem_cons, h1, false_or]
      exact ih

theorem mapKeys_mapDelete (id : String) (m : MsgMap) :
    mapKeys (mapDelete id m) = (mapKeys m).filter (fun k => decide (k ≠ id)) := by
  simp only [mapKeys, mapDelete, List.filter_map]
  rfl

/-! ## Publish -/

/-- C9: when id generation succeeds `Publish` returns the id and appends to `pending` one
message with that id, the payload and delivery count 0, leaving `inFlight` and
`deadLetter` alone; when id generation fails it returns the error and the queue is
unchanged. -/
theorem Publish_postcondition (q : InMemoryQueue) (payload : List UInt8) (now : Int) :
    (∀ id : String, ∃ msg : Message,
        Publish (.ok id) payload now q = (.ok id, { q with pending := q.pending ++ [msg] }) ∧
        msg.ID = id ∧ msg.Payload = payload ∧ msg.DeliveryCount = 0 ∧
        (Publish (.ok id) payload now q).2.inFlight = q.inFlight ∧
        (Publish (.ok id) payload now q).2.deadLetter = q.deadLetter) ∧
    (∀ err : String, Publish (.error err) payload now q = (.error err, q)) := by
  refine ⟨fun id => ⟨⟨id, payload, now, 0, zeroTime⟩, rfl, rfl, rfl, rfl, rfl, rfl⟩,
    fun err => rfl⟩

/-! ## Claim -/

/-- C5: when the head `m` of `pending` has a delivery count below the maximum, `Claim`
(whatever the wait) returns `m` with the count one higher and the deadline set to the
clock plus the lease, pops it from `pending`, stores it in `inFlight` under `m.ID` and
leaves `deadLetter` alone. -/
theorem Claim_deliverable_head (q : InMemoryQueue) (m : Message) (rest : List Message)
    (start wait : Int) (clock : Nat → Int)
    (hp : q.pending = m :: rest) (hd : m.DeliveryCount < q.maxDeliveryCount) :
    ∃ msg : Message,
      (Claim start wait clock q).1 = .returned (.ok msg) ∧
      msg.ID = m.ID ∧ msg.Payload = m.Payload ∧ msg.CreatedAt = m.CreatedAt ∧
      msg.DeliveryCount = m.DeliveryCount + 1 ∧
      msg.VisibilityDeadline = clock 0 + q.leaseDuration ∧
      (Claim start wait clock q).2.pending = rest ∧
      (∀ k, mapGet k (Claim start wait clock q).2.inFlight =
        if k = m.ID then some msg else mapGet k q.inFlight) ∧
      (Claim start wait clock q).2.deadLetter = q.deadLetter := by
  have hn : ¬ (m.DeliveryCount + 1 > q.maxDeliveryCount) := by omega
  refine ⟨{ m with DeliveryCount := m.DeliveryCount + 1,
                   VisibilityDeadline := clock 0 + q.leaseDuration }, ?_⟩
  simp only [Claim, hp, claimLoop, hn, if_false, true_and, and_true]
  intro k
  exact mapGet_mapSet k m.ID _ q.inFlight

theorem Claim_deliverable_head_witness :
    ∃ msg : Message,
      (Claim 0 (-5) (fun _ => 7)
        { name := "q", pending := [⟨"a", [1], 3, 0, 0⟩], inFlight := [], deadLetter := [],
          maxDeliveryCount := 1, leaseDuration := 30 }).1 = .returned (.ok msg) ∧
      msg.ID = "a" ∧ msg.Payload = [1] ∧ msg.CreatedAt = 3 ∧
      msg.DeliveryCount = 0 + 1 ∧ msg.VisibilityDeadline = 7 + 30 ∧
      (Claim 0 (-5) (fun _ => 7)
        { name := "q", pending := [⟨"a", [1], 3, 0, 0⟩], inFlight := [], deadLetter := [],
          maxDeliveryCount := 1, leaseDuration := 30 }).2.pending = [] ∧
      (∀ k, mapGet k (Claim 0 (-5) (fun _ => 7)
        { name := "q", pending := [⟨"a", [1], 3, 0, 0⟩], inFlight := [], deadLetter := [],
          maxDeliveryCount := 1, leaseDuration := 30 }).2.inFlight =
        if k = "a" then some msg else mapGet k []) ∧
      (Claim 0 (-5) (fun _ => 7)
        { name := "q", pending := [⟨"a", [1], 3, 0, 0⟩], inFlight := [], deadLetter := [],
          maxDeliveryCount := 1, leaseDuration := 30 }).2.deadLetter = [] :=
  Claim_deliverable_head
    { name := "q", pending := [⟨"a", [1], 3, 0, 0⟩], inFlight := [], deadLetter := [],
      maxDeliveryCount := 1, leaseDuration := 30 }
    ⟨"a", [1], 3, 0, 0⟩ [] 0 (-5) (fun _ => 7) rfl (by decide)

/-! ## FIFO delivery -/

theorem publishAll_eq (pubs : List (String × List UInt8 × Int)) (q : InMemoryQueue) :
    publishAll pubs q = { q with pending := q.pending ++ pubs.map freshMessage } := by
  induction pubs generalizing q with
  | nil => simp [publishAll]
  | cons c rest ih =>
    obtain ⟨id, payload, now⟩ := c
    simp [publishAll, Publish, ih, freshMessage]

theorem claimAll_fresh (pubs : List (String × List UInt8 × Int))
    (calls : List (Int × Int × (Nat → Int))) (q : InMemoryQueue)
    (hlen : calls.length = pubs.length) (hp : q.pending = pubs.map freshMessage)
    (hmax : 1 ≤ q.maxDeliveryCount) :
    (claimAll calls q).1 =
      List.zipWith (fun c call => ClaimStep.returned (.ok
        { ID := c.1, Payload := c.2.1, CreatedAt := c.2.2, DeliveryCount := 1,
          VisibilityDeadline := call.2.2 0 + q.leaseDuration })) pubs calls := by
  induction pubs generalizing calls q with
  | nil =>
    cases calls with
    | nil => simp [claimAll]
    | cons _ _ => simp at hlen
  | cons c rest ih =>
    cases calls with
    | nil => simp at hlen
    | cons call calls =>
      obtain ⟨start, wait, clock⟩ := call
      have hn : ¬ ((1 : Int) > q.maxDeliveryCount) := by omega
      have hlen1 : calls.length = rest.length := by simpa using hlen
      simp only [List.map_cons] at hp
      simp only [claimAll, Claim, hp, claimLoop, freshMessage, hn, if_false,
        List.zipWith_cons_cons, zero_add]
      congr 1
      exact ih calls _ hlen1 rfl hmax

/-- C1: on a queue with `maxDeliveryCount ≥ 1` and nothing pending, after `Publish` calls
returning `id₁ … idₙ` for payloads `p₁ … pₙ` (and nothing in between), the next `n` calls
of `Claim` return, in this order, the messages with id `idᵢ`, payload `pᵢ` and delivery
count 1. -/
theorem fifo_delivery (q : InMemoryQueue) (pubs : List (String × List UInt8 × Int))
    (calls : List (Int × Int × (Nat → Int)))
    (hmax : 1 ≤ q.maxDeliveryCount) (hempty : q.pending = [])
    (hlen : calls.length = pubs.length) :
    (claimAll calls (publishAll pubs q)).1 =
      List.zipWith (fun c call => ClaimStep.returned (.ok
        { ID := c.1, Payload := c.2.1, CreatedAt := c.2.2, DeliveryCount := 1,
          VisibilityDeadline := call.2.2 0 + q.leaseDuration })) pubs calls := by
  have h := claimAll_fresh pubs calls (publishAll pubs q) hlen
    (by rw [publishAll_eq]; simp [hempty]) (by rw [publishAll_eq]; exact hmax)
  rw [h, publishAll_eq]

theorem fifo_delivery_witness :
    (claimAll [(0, 5, fun _ => 10), (0, 0, fun _ => 11), (0, -1, fun _ => 12)]
      (publishAll [("A", [1], 1), ("B", [], 2), ("C", [3], 3)]
        (NewInMemoryQueue "q" 30 1))).1 =
      [ .returned (.ok ⟨"A", [1], 1, 1, 40⟩), .returned (.ok ⟨"B", [], 2, 1, 41⟩),
        .returned (.ok ⟨"C", [3], 3, 1, 42⟩) ] :=
  fifo_delivery (NewInMemoryQueue "q" 30 1) [("A", [1], 1), ("B", [], 2), ("C", [3], 3)]
    [(0, 5, fun _ => 10), (0, 0, fun _ => 11), (0, -1, fun _ => 12)]
    (by decide) rfl rfl

/-! ## The invariant -/

theorem count_mapKeys_mapDelete (k id : String) (m : MsgMap) :
    (mapKeys (mapDelete id m)).count k = if k = id then 0 else (mapKeys m).count k := by
  rw [mapKeys_mapDelete]
  by_cases h : k = id
  · subst h
    simp [List.count_eq_zero, List.mem_filter]
  · simp only [h, if_false]
    exact List.count_filter (by simpa using h)

theorem Inv.count_le_one {s : Sys} (h : Inv s) (id : String) :
    (allIds s.q).count id ≤ 1 := by
  have h1 := h.bal id
  have h2 := List.nodup_iff_count_le_one.mp h.pubNodup id
  omega

theorem mem_of_mapGet {k : String} {v : Message} {m : MsgMap} (h : mapGet k m = some v) :
    (k, v) ∈ m := by
  induction m with
  | nil => simp [mapGet] at h
  | cons e rest ih =>
    obtain ⟨k1, w⟩ := e
    by_cases h1 : k1 = k
    · simp [mapGet, h1] at h
      simp [h1, h]
    · simp only [mapGet, h1, if_false] at h
      exact List.mem_cons_of_mem _ (ih h)

theorem mem_mapDelete {e : String × Message} {id : String} {m : MsgMap}
    (h : e ∈ mapDelete id m) : e ∈ m ∧ e.1 ≠ id := by
  simpa [mapDelete, List.mem_filter] using h

theorem count_mapKeys_mapSet (k id : String) (v : Message) (m : MsgMap) :
    (mapKeys (mapSet id v m)).count k =
      if k = id then 1 else (mapKeys m).count k := by
  have h := count_mapKeys_mapDelete k id m
  simp only [mapKeys, mapSet, List.map_append, List.count_append, List.map_cons,
    List.map_nil] at h ⊢
  rw [h]
  by_cases hk : k = id
  · subst hk; simp
  · have hk1 : ¬ id = k := fun e => hk e.symm
    simp [hk, hk1, List.count_cons]

theorem count_append_single (k id : String) (l : List String) :
    (l ++ [id]).count k = l.count k + if k = id then 1 else 0 := by
  by_cases hk : k = id
  · subst hk; simp
  · have hk1 : ¬ id = k := fun e => hk e.symm
    simp [hk, hk1, List.count_cons]

theorem count_cons_id (k id : String) (l : List String) :
    (id :: l).count k = l.count k + if k = id then 1 else 0 := by
  by_cases hk : k = id
  · subst hk; simp
  · have hk1 : ¬ id = k := fun e => hk e.symm
    simp [hk, hk1, List.count_cons]

theorem count_allIds (q : InMemoryQueue) (k : String) :
    (allIds q).count k =
      (ids q.pending).count k + (mapKeys q.inFlight).count k +
        (ids q.deadLetter).count k := by
  simp [allIds, List.count_append, Nat.add_assoc]

/-- The head of `pending` is over the threshold and goes to `deadLetter`. -/
theorem Inv.claim_dead {q : InMemoryQueue} {pub ack del : List String} {m : Message}
    {rest : List Message} (t : Int) (h : Inv ⟨q, pub, ack, del⟩) (hp : q.pending = m :: rest)
    (hd : m.DeliveryCount + 1 > q.maxDeliveryCount) :
    Inv ⟨{ q with pending := rest, deadLetter := q.deadLetter ++
      [{ m with DeliveryCount := m.DeliveryCount + 1, VisibilityDeadline := t }] },
      pub, ack, del⟩ := by
  have hm : m ∈ q.pending := by simp [hp]
  refine ⟨?_, h.pubNodup, h.keyed, h.delPub, ?_, h.infl, ?_, h.bound⟩
  · intro id
    have h1 := h.bal id
    simp only [count_allIds, hp, ids, List.map_cons, List.map_append, List.map_nil,
      count_cons_id, count_append_single] at h1 ⊢
    omega
  · intro m1 hm1
    exact h.pend m1 (by simp only [hp]; exact List.mem_cons_of_mem _ hm1)
  · intro m1 hm1
    simp only [List.mem_append, List.mem_singleton] at hm1
    rcases hm1 with hm1 | hm1
    · exact h.dead m1 hm1
    · subst hm1
      have h2 := (h.pend m hm).1
      simp only at h2 ⊢
      constructor <;> omega

theorem count_pos_of_mem_ids {m : Message} {l : List Message} (h : m ∈ l) :
    0 < (ids l).count m.ID :=
  List.count_pos_iff.mpr (List.mem_map_of_mem _ h)

theorem count_pos_of_mem_keys {e : String × Message} {l : MsgMap} (h : e ∈ l) :
    0 < (mapKeys l).count e.1 :=
  List.count_pos_iff.mpr (List.mem_map_of_mem _ h)

/-- The head of `pending` is within the threshold: it goes to `inFlight` and is
returned. -/
theorem Inv.claim_deliver {q : InMemoryQueue} {pub ack del : List String} {m : Message}
    {rest : List Message} (t : Int) (h : Inv ⟨q, pub, ack, del⟩) (hp : q.pending = m :: rest)
    (hd : ¬ (m.DeliveryCount + 1 > q.maxDeliveryCount)) :
    Inv ⟨{ q with pending := rest, inFlight := (mapSet m.ID
      ({ m with DeliveryCount := m.DeliveryCount + 1, VisibilityDeadline := t }) q.inFlight) },
      pub, ack, del ++ [m.ID]⟩ := by
  have hm : m ∈ q.pending := by simp [hp]
  have hone : ∀ id, (allIds q).count id ≤ 1 := fun id => h.count_le_one id
  obtain ⟨hbal, hnd, hkeyed, hdp, hpend, hinfl, hdead, hbound⟩ := h
  dsimp only at hbal hnd hkeyed hdp hpend hinfl hdead hbound
  have hall : ∀ id, (ids rest).count id + (if id = m.ID then 1 else 0) +
      (mapKeys q.inFlight).count id + (ids q.deadLetter).count id ≤ 1 := by
    intro id
    have h1 := hone id
    simp only [count_allIds, hp, ids, List.map_cons, count_cons_id] at h1 ⊢
    exact h1
  have hpm := (hpend m hm).1
  refine ⟨?_, hnd, ?_, ?_, ?_, ?_, ?_, ?_⟩ <;> dsimp only
  · intro id
    have h1 := hbal id
    have h2 := hall id
    simp only [count_allIds, hp, ids, List.map_cons, count_cons_id, count_mapKeys_mapSet]
      at h1 ⊢
    by_cases hk : id = m.ID
    · simp only [hk, if_true] at h1 h2 ⊢; omega
    · simp only [hk, if_false] at h1 h2 ⊢; omega
  · intro e he
    simp only [mapSet, List.mem_append, List.mem_singleton] at he
    rcases he with he | he
    · exact hkeyed e (mem_mapDelete he).1
    · subst he; rfl
  · intro id hid
    simp only [List.mem_append, List.mem_singleton] at hid
    rcases hid with hid | hid
    · exact hdp id hid
    · subst hid
      have h1 := hbal m.ID
      have h2 : 0 < (allIds q).count m.ID := by
        rw [count_allIds]
        have := count_pos_of_mem_ids hm
        omega
      exact List.count_pos_iff.mp (by omega)
  · intro m1 hm1
    have h1 := hpend m1 (by simp only [hp]; exact List.mem_cons_of_mem _ hm1)
    have h2 := hall m1.ID
    have h3 := count_pos_of_mem_ids hm1
    have hne : ¬ m1.ID = m.ID := by
      intro e; simp only [e, if_true] at h2; rw [e] at h3; omega
    simp only [count_append_single, hne, if_false, Nat.add_zero]
    exact h1
  · intro e he
    simp only [mapSet, List.mem_append, List.mem_singleton] at he
    rcases he with he | he
    · have he1 := (mem_mapDelete he).1
      have h1 := hinfl e he1
      have h2 := hall e.1
      have h3 := count_pos_of_mem_keys he1
      have hk := hkeyed e he1
      have hne : ¬ e.2.ID = m.ID := by
        rw [hk]; intro e1; simp only [e1, if_true] at h2; rw [e1] at h3; omega
      simp only [count_append_single, hne, if_false, Nat.add_zero]
      exact h1
    · subst he
      simp only [count_append_single, if_true, Nat.cast_add, Nat.cast_one]
      refine ⟨by omega, by omega, by omega⟩
  · intro m1 hm1
    have h1 := hdead m1 hm1
    have h2 := hall m1.ID
    have h3 := count_pos_of_mem_ids hm1
    have hne : ¬ m1.ID = m.ID := by
      intro e; simp only [e, if_true] at h2; rw [e] at h3; omega
    simp only [count_append_single, hne, if_false, Nat.add_zero]
    exact h1
  · intro id
    by_cases hk : id = m.ID
    · subst hk
      right
      simp only [count_append_single, if_true, Nat.cast_add, Nat.cast_one]
      omega
    · simp only [count_append_single, hk, if_false, Nat.add_zero]
      exact hbound id

/-- The history after a pass of `Claim` that ended with `r`. -/
theorem exec_claim_eq (start wait : Int) (clock : Nat → Int) (s : Sys) :
    exec (.claim start wait clock) s =
      match claimLoop (start + wait) clock s.q.pending 0 s.q with
      | (.returned (.ok m), q1) => ⟨q1, s.published, s.acked, s.delivered ++ [m.ID]⟩
      | (_, q1) => ⟨q1, s.published, s.acked, s.delivered⟩ := by
  simp only [exec, Claim]

theorem claimLoop_inv (deadline : Int) (clock : Nat → Int) (pend : List Message) :
    ∀ (i : Nat) (q : InMemoryQueue) (pub ack del : List String),
      Inv ⟨q, pub, ack, del⟩ → q.pending = pend →
      Inv (match claimLoop deadline clock pend i q with
        | (.returned (.ok m), q1) => ⟨q1, pub, ack, del ++ [m.ID]⟩
        | (_, q1) => ⟨q1, pub, ack, del⟩) := by
  induction pend with
  | nil =>
    intro i q pub ack del h _
    by_cases hr : deadline - clock i ≤ 0
    · simpa only [claimLoop, hr, if_true] using h
    · simpa only [claimLoop, hr, if_false] using h
  | cons m rest ih =>
    intro i q pub ack del h hp
    by_cases hd : m.DeliveryCount + 1 > q.maxDeliveryCount
    · simp only [claimLoop, hd, if_true]
      exact ih (i + 1) _ pub ack del (h.claim_dead _ hp hd) rfl
    · simp only [claimLoop, hd, if_false]
      exact h.claim_deliver _ hp hd

theorem Inv.publish {q : InMemoryQueue} {pub ack del : List String} (id : String)
    (payload : List UInt8) (now : Int) (h : Inv ⟨q, pub, ack, del⟩) (hid : id ∉ pub) :
    Inv ⟨{ q with pending := q.pending ++
      [{ ID := id, Payload := payload, CreatedAt := now, DeliveryCount := 0,
         VisibilityDeadline := zeroTime }] }, pub ++ [id], ack, del⟩ := by
  obtain ⟨hbal, hnd, hkeyed, hdp, hpend, hinfl, hdead, hbound⟩ := h
  dsimp only at hbal hnd hkeyed hdp hpend hinfl hdead hbound
  refine ⟨?_, ?_, hkeyed, ?_, ?_, hinfl, hdead, hbound⟩ <;> dsimp only
  · intro k
    have h1 := hbal k
    simp only [count_allIds, ids, List.map_append, List.map_cons, List.map_nil,
      count_append_single] at h1 ⊢
    omega
  · exact List.nodup_append.mpr ⟨hnd, List.nodup_singleton id, by simpa using hid⟩
  · intro k hk
    exact List.mem_append_left _ (hdp k hk)
  · intro m1 hm1
    simp only [List.mem_append, List.mem_singleton] at hm1
    rcases hm1 with hm1 | hm1
    · exact hpend m1 hm1
    · subst hm1
      have h0 : del.count id = 0 := List.count_eq_zero.mpr (fun hc => hid (hdp id hc))
      simp [h0]

theorem Inv.ack {q : InMemoryQueue} {pub ack del : List String} {id : String} {v : Message}
    (h : Inv ⟨q, pub, ack, del⟩) (hg : mapGet id q.inFlight = some v) :
    Inv ⟨{ q with inFlight := mapDelete id q.inFlight }, pub, ack ++ [id], del⟩ := by
  have hone : ∀ k, (allIds q).count k ≤ 1 := fun k => h.count_le_one k
  have hmem := count_pos_of_mem_keys (mem_of_mapGet hg)
  obtain ⟨hbal, hnd, hkeyed, hdp, hpend, hinfl, hdead, hbound⟩ := h
  dsimp only at hbal hnd hkeyed hdp hpend hinfl hdead hbound hmem
  refine ⟨?_, hnd, ?_, hdp, hpend, ?_, hdead, hbound⟩ <;> dsimp only
  · intro k
    have h1 := hbal k
    have h2 := hone k
    simp only [count_allIds, count_mapKeys_mapDelete, count_append_single] at h1 h2 ⊢
    by_cases hk : k = id
    · subst hk; simp only [if_true]; omega
    · simp only [hk, if_false]; omega
  · intro e he
    exact hkeyed e (mem_mapDelete he).1
  · intro e he
    exact hinfl e (mem_mapDelete he).1

/-- One expired entry of `inFlight` goes back to the tail of `pending`. -/
theorem Inv.requeue {q : InMemoryQueue} {pub ack del : List String} {id : String}
    {msg : Message} (h : Inv ⟨q, pub, ack, del⟩) (hg : mapGet id q.inFlight = some msg) :
    ¬ (msg.DeliveryCount > q.maxDeliveryCount) ∧
    Inv ⟨{ q with inFlight := mapDelete id q.inFlight, pending := q.pending ++ [msg] },
      pub, ack, del⟩ := by
  have hone : ∀ k, (allIds q).count k ≤ 1 := fun k => h.count_le_one k
  have hin := mem_of_mapGet hg
  have hmem := count_pos_of_mem_keys hin
  obtain ⟨hbal, hnd, hkeyed, hdp, hpend, hinfl, hdead, hbound⟩ := h
  dsimp only at hbal hnd hkeyed hdp hpend hinfl hdead hbound hmem
  have hk := hkeyed _ hin
  have hi := hinfl _ hin
  dsimp only at hk hi
  refine ⟨by omega, ?_, hnd, ?_, hdp, ?_, ?_, hdead, hbound⟩ <;> dsimp only
  · intro k
    have h1 := hbal k
    have h2 := hone k
    simp only [count_allIds, count_mapKeys_mapDelete, ids, List.map_append, List.map_cons,
      List.map_nil, count_append_single, hk] at h1 h2 ⊢
    by_cases hkk : k = id
    · subst hkk; simp only [if_true]; omega
    · simp only [hkk, if_false]; omega
  · intro e he
    exact hkeyed e (mem_mapDelete he).1
  · intro m1 hm1
    simp only [List.mem_append, List.mem_singleton] at hm1
    rcases hm1 with hm1 | hm1
    · exact hpend m1 hm1
    · subst hm1
      exact ⟨hi.1, Or.inr hi.2.2⟩
  · intro e he
    exact hinfl e (mem_mapDelete he).1

theorem requeueLoop_inv (now : Int) (order : List String) :
    ∀ (cnt : Nat) (q : InMemoryQueue) (pub ack del : List String),
      Inv ⟨q, pub, ack, del⟩ → Inv ⟨requeueLoop now order cnt q, pub, ack, del⟩ := by
  induction order with
  | nil => intro cnt q pub ack del h; exact h
  | cons id rest ih =>
    intro cnt q pub ack del h
    by_cases hc : cnt ≥ batchSize
    · simpa only [requeueLoop, hc, if_true] using h
    · simp only [requeueLoop, hc, if_false]
      cases hg : mapGet id q.inFlight with
      | none => exact ih cnt q pub ack del h
      | some msg =>
        dsimp only
        by_cases he : msg.VisibilityDeadline < now
        · have h1 := h.requeue hg
          simp only [he, if_true, h1.1, if_false]
          exact ih (cnt + 1) _ pub ack del h1.2
        · simp only [he, if_false]
          exact ih cnt q pub ack del h

theorem Inv.init (name : String) (lease maxDelivery : Int) :
    Inv (Sys.init name lease maxDelivery) := by
  refine ⟨?_, ?_, ?_, ?_, ?_, ?_, ?_, ?_⟩ <;>
    simp [Sys.init, NewInMemoryQueue, allIds, ids, mapKeys]

theorem Inv.exec {s : Sys} (op : Op) (h : Inv s) (hv : ValidOp s op) : Inv (exec op s) := by
  obtain ⟨q, pub, ack, del⟩ := s
  cases op with
  | publish gen payload now =>
    cases gen with
    | error err => exact h
    | ok id => exact h.publish id payload now hv
  | claim start wait clock =>
    rw [exec_claim_eq]
    exact claimLoop_inv (start + wait) clock q.pending 0 q pub ack del h rfl
  | ack messageID =>
    cases hg : mapGet messageID q.inFlight with
    | none => simpa only [Queue.exec, Ack, hg] using h
    | some v => simpa only [Queue.exec, Ack, hg] using h.ack hg
  | stats => exact h
  | tick now order => exact requeueLoop_inv now order 0 q pub ack del h

theorem Reachable.inv {s : Sys} (h : Reachable s) : Inv s := by
  induction h with
  | init name lease maxDelivery => exact Inv.init name lease maxDelivery
  | step op _ hv ih => exact ih.exec op hv

theorem Reachable.execAll {s : Sys} (ops : List Op) (h : Reachable s)
    (hv : ValidTrace s ops) : Reachable (execAll ops s) := by
  induction ops generalizing s with
  | nil => exact h
  | cons op rest ih => exact ih (Reachable.step op h hv.1) hv.2

theorem sampleSys_eq :
    sampleSys =
      { q := { name := "q", pending := [], inFlight := [],
               deadLetter := [⟨"a", [1], 0, 2, 71⟩], maxDeliveryCount := 1,
               leaseDuration := 30 },
        published := ["a", "b"], acked := ["b"], delivered := ["a", "b"] } := by
  rfl

theorem sampleOps_valid : ValidTrace (Sys.init "q" 30 1) sampleOps := by
  refine ⟨?_, ?_, trivial, trivial, trivial, ?_, trivial, trivial⟩
  · show "a" ∉ ([] : List String)
    decide
  · show "b" ∉ ["a"]
    decide
  · show List.Perm ["a"] ["a"]
    exact List.Perm.refl _

theorem sampleSys_reachable : Reachable sampleSys :=
  Reachable.execAll sampleOps (Reachable.init "q" 30 1) sampleOps_valid

/-! ## Disjointness of the three collections -/

/-- C3: in every state reachable from a new queue (ids fresh at publish), no id occurs
twice inside `pending`, `inFlight` or `deadLetter`, no id occurs in two of them, and an
id is held by the collections, exactly once, if and only if it was published and not yet
acked. -/
theorem collections_disjoint (s : Sys) (h : Reachable s) :
    (ids s.q.pending).Nodup ∧ (mapKeys s.q.inFlight).Nodup ∧ (ids s.q.deadLetter).Nodup ∧
    List.Disjoint (ids s.q.pending) (mapKeys s.q.inFlight) ∧
    List.Disjoint (ids s.q.pending) (ids s.q.deadLetter) ∧
    List.Disjoint (mapKeys s.q.inFlight) (ids s.q.deadLetter) ∧
    (∀ id, id ∈ s.published → id ∉ s.acked →
      (ids s.q.pending).count id + (mapKeys s.q.inFlight).count id +
        (ids s.q.deadLetter).count id = 1) ∧
    (∀ id, id ∈ allIds s.q → id ∈ s.published ∧ id ∉ s.acked) := by
  have hi := h.inv
  have hnd : (allIds s.q).Nodup := List.nodup_iff_count_le_one.mpr hi.count_le_one
  have hnd1 := hnd
  simp only [allIds, List.nodup_append, List.disjoint_append_right] at hnd1
  obtain ⟨hp, ⟨hf, hd, hfd⟩, hpf, hpd⟩ := hnd1
  refine ⟨hp, hf, hd, hpf, hpd, hfd, ?_, ?_⟩
  · intro id hpub hack
    have h1 := hi.bal id
    have h2 := hi.count_le_one id
    have h3 : 0 < s.published.count id := List.count_pos_iff.mpr hpub
    have h4 : s.acked.count id = 0 := List.count_eq_zero.mpr hack
    rw [count_allIds] at h1 h2
    omega
  · intro id hid
    have h1 := hi.bal id
    have h2 := List.nodup_iff_count_le_one.mp hi.pubNodup id
    have h3 : 0 < (allIds s.q).count id := List.count_pos_iff.mpr hid
    exact ⟨List.count_pos_iff.mp (by omega), List.count_eq_zero.mp (by omega)⟩

theorem collections_disjoint_witness :
    (ids sampleSys.q.pending).Nodup ∧ (mapKeys sampleSys.q.inFlight).Nodup ∧
    (ids sampleSys.q.deadLetter).Nodup ∧
    List.Disjoint (ids sampleSys.q.pending) (mapKeys sampleSys.q.inFlight) ∧
    List.Disjoint (ids sampleSys.q.pending) (ids sampleSys.q.deadLetter) ∧
    List.Disjoint (mapKeys sampleSys.q.inFlight) (ids sampleSys.q.deadLetter) ∧
    (∀ id, id ∈ sampleSys.published → id ∉ sampleSys.acked →
      (ids sampleSys.q.pending).count id + (mapKeys sampleSys.q.inFlight).count id +
        (ids sampleSys.q.deadLetter).count id = 1) ∧
    (∀ id, id ∈ allIds sampleSys.q → id ∈ sampleSys.published ∧ id ∉ sampleSys.acked) :=
  collections_disjoint sampleSys sampleSys_reachable

/-! ## Stats -/

/-- C7: in every state reachable from a new queue, `Stats` returns the length of
`pending`, the number of keys of `inFlight` and the length of `deadLetter`, leaves the
queue as it is, and the three counts add up to the number of successful `Publish` calls
minus the number of successful `Ack` calls. -/
theorem stats_consistent (s : Sys) (h : Reachable s) :
    (Stats s.q).1.Pending = s.q.pending.length ∧
    (Stats s.q).1.InFlight = (mapKeys s.q.inFlight).toFinset.card ∧
    (Stats s.q).1.DeadLetter = s.q.deadLetter.length ∧
    (Stats s.q).2 = s.q ∧
    (((Stats s.q).1.Pending + (Stats s.q).1.InFlight + (Stats s.q).1.DeadLetter : Nat) : Int)
      = (s.published.length : Int) - (s.acked.length : Int) := by
  have hi := h.inv
  have hnd : (allIds s.q).Nodup := List.nodup_iff_count_le_one.mpr hi.count_le_one
  have hf : (mapKeys s.q.inFlight).Nodup := by
    simp only [allIds, List.nodup_append] at hnd
    exact hnd.2.1.1
  have hperm : List.Perm (allIds s.q ++ s.acked) s.published := by
    rw [List.perm_iff_count]
    intro id
    rw [List.count_append]
    exact hi.bal id
  have hlen := hperm.length_eq
  simp only [allIds, ids, mapKeys, List.length_append, List.length_map] at hlen
  refine ⟨rfl, ?_, rfl, rfl, ?_⟩
  · rw [List.toFinset_card_of_nodup hf]
    simp [Stats, mapKeys]
  · simp only [Stats]
    omega

theorem stats_consistent_witness :
    (Stats sampleSys.q).1.Pending = sampleSys.q.pending.length ∧
    (Stats sampleSys.q).1.InFlight = (mapKeys sampleSys.q.inFlight).toFinset.card ∧
    (Stats sampleSys.q).1.DeadLetter = sampleSys.q.deadLetter.length ∧
    (Stats sampleSys.q).2 = sampleSys.q ∧
    (((Stats sampleSys.q).1.Pending + (Stats sampleSys.q).1.InFlight +
        (Stats sampleSys.q).1.DeadLetter : Nat) : Int)
      = (sampleSys.published.length : Int) - (sampleSys.acked.length : Int) :=
  stats_consistent sampleSys sampleSys_reachable

/-! ## Delivery counts and the dead-letter threshold -/

theorem claimLoop_deadLetter (deadline : Int) (clock : Nat → Int) (pend : List Message) :
    ∀ (i : Nat) (q : InMemoryQueue),
      q.deadLetter <+: (claimLoop deadline clock pend i q).2.deadLetter := by
  induction pend with
  | nil =>
    intro i q
    by_cases hr : deadline - clock i ≤ 0
    · simp only [claimLoop, hr, if_true]; exact List.prefix_refl _
    · simp only [claimLoop, hr, if_false]; exact List.prefix_refl _
  | cons m rest ih =>
    intro i q
    by_cases hd : m.DeliveryCount + 1 > q.maxDeliveryCount
    · simp only [claimLoop, hd, if_true]
      refine List.IsPrefix.trans ?_ (ih (i + 1) _)
      exact List.prefix_append _ _
    · simp only [claimLoop, hd, if_false]
      exact List.prefix_refl _

theorem requeueLoop_deadLetter (now : Int) (order : List String) :
    ∀ (cnt : Nat) (q : InMemoryQueue),
      q.deadLetter <+: (requeueLoop now order cnt q).deadLetter := by
  induction order with
  | nil => intro cnt q; exact List.prefix_refl _
  | cons id rest ih =>
    intro cnt q
    by_cases hc : cnt ≥ batchSize
    · simp only [requeueLoop, hc, if_true]; exact List.prefix_refl _
    · simp only [requeueLoop, hc, if_false]
      cases hg : mapGet id q.inFlight with
      | none => exact ih cnt q
      | some msg =>
        dsimp only
        by_cases he : msg.VisibilityDeadline < now
        · simp only [he, if_true]
          by_cases hd : msg.DeliveryCount > q.maxDeliveryCount
          · simp only [hd, if_true]
            refine List.IsPrefix.trans ?_ (ih (cnt + 1) _)
            exact List.prefix_append _ _
          · simp only [hd, if_false]
            refine List.IsPrefix.trans ?_ (ih (cnt + 1) _)
            exact List.prefix_refl _
        · simp only [he, if_false]
          exact ih cnt q

theorem exec_deadLetter (op : Op) (s : Sys) :
    s.q.deadLetter <+: (exec op s).q.deadLetter := by
  cases op with
  | publish gen payload now =>
    cases gen with
    | error err => exact List.prefix_refl _
    | ok id => exact List.prefix_refl _
  | claim start wait clock =>
    have h := claimLoop_deadLetter (start + wait) clock s.q.pending 0 s.q
    rw [exec_claim_eq]
    split
    · next heq => rw [heq] at h; exact h
    · next heq => rw [heq] at h; exact h
  | ack messageID =>
    cases hg : mapGet messageID s.q.inFlight with
    | none => simp only [exec, Ack, hg]; exact List.prefix_refl _
    | some v => simp only [exec, Ack, hg]; exact List.prefix_refl _
  | stats => exact List.prefix_refl _
  | tick now order => exact requeueLoop_deadLetter now order 0 s.q

theorem execAll_deadLetter (ops : List Op) :
    ∀ s : Sys, s.q.deadLetter <+: (execAll ops s).q.deadLetter := by
  induction ops with
  | nil => intro s; exact List.prefix_refl _
  | cons op rest ih => intro s; exact (exec_deadLetter op s).trans (ih _)

theorem claimLoop_maxDeliveryCount (deadline : Int) (clock : Nat → Int)
    (pend : List Message) :
    ∀ (i : Nat) (q : InMemoryQueue),
      (claimLoop deadline clock pend i q).2.maxDeliveryCount = q.maxDeliveryCount := by
  induction pend with
  | nil =>
    intro i q
    by_cases hr : deadline - clock i ≤ 0
    · simp only [claimLoop, hr, if_true]
    · simp only [claimLoop, hr, if_false]
  | cons m rest ih =>
    intro i q
    by_cases hd : m.DeliveryCount + 1 > q.maxDeliveryCount
    · simp only [claimLoop, hd, if_true]
      exact ih (i + 1) _
    · simp only [claimLoop, hd, if_false]

theorem Inv.claim_returned {s : Sys} (h : Inv s) {start wait : Int} {clock : Nat → Int}
    {r : Message} (hr : (Claim start wait clock s.q).1 = .returned (.ok r)) :
    Inv ⟨(Claim start wait clock s.q).2, s.published, s.acked, s.delivered ++ [r.ID]⟩ := by
  have h1 := h.exec (.claim start wait clock) trivial
  rw [exec_claim_eq] at h1
  simp only [Claim] at hr ⊢
  generalize claimLoop (start + wait) clock s.q.pending 0 s.q = res at h1 hr
  obtain ⟨st, q1⟩ := res
  simp only at hr
  subst hr
  exact h1

/-- C8 (amended): in every state reachable from a new queue, the `DeliveryCount` of a
message in `pending` or in `inFlight` is the number of times `Claim` returned it, and that
of a message in `deadLetter` is this number plus one (the claim attempt that dead-letters
a message has incremented the count before the threshold test); a message enters
`pending` from `Publish` with count 0. -/
theorem delivery_count_counts (s : Sys) (h : Reachable s) :
    (∀ m ∈ s.q.pending, m.DeliveryCount = (s.delivered.count m.ID : Int)) ∧
    (∀ e ∈ s.q.inFlight, e.2.DeliveryCount = (s.delivered.count e.2.ID : Int)) ∧
    (∀ m ∈ s.q.deadLetter, m.DeliveryCount = (s.delivered.count m.ID : Int) + 1) ∧
    (∀ id payload now, ∀ m ∈ (Publish (.ok id) payload now s.q).2.pending,
      m ∉ s.q.pending → m.DeliveryCount = 0) := by
  have hi := h.inv
  refine ⟨fun m hm => (hi.pend m hm).1, fun e he => (hi.infl e he).1,
    fun m hm => (hi.dead m hm).1, ?_⟩
  intro id payload now m hm hn
  simp only [Publish, List.mem_append, List.mem_singleton] at hm
  rcases hm with hm | hm
  · exact absurd hm hn
  · rw [hm]

theorem delivery_count_counts_witness :
    (∀ m ∈ sampleSys.q.pending, m.DeliveryCount = (sampleSys.delivered.count m.ID : Int)) ∧
    (∀ e ∈ sampleSys.q.inFlight,
      e.2.DeliveryCount = (sampleSys.delivered.count e.2.ID : Int)) ∧
    (∀ m ∈ sampleSys.q.deadLetter,
      m.DeliveryCount = (sampleSys.delivered.count m.ID : Int) + 1) ∧
    (∀ id payload now, ∀ m ∈ (Publish (.ok id) payload now sampleSys.q).2.pending,
      m ∉ sampleSys.q.pending → m.DeliveryCount = 0) :=
  delivery_count_counts sampleSys sampleSys_reachable

/-- C8 as stated fails: after `sampleOps` the message `"a"` sits in `deadLetter` with
`DeliveryCount = 2` although `Claim` returned it once. -/
theorem delivery_count_counterexample :
    Reachable sampleSys ∧
    sampleSys.q.deadLetter = [⟨"a", [1], 0, 2, 71⟩] ∧
    sampleSys.delivered.count "a" = 1 ∧
    ¬ (∀ s : Sys, Reachable s →
        ∀ m ∈ s.q.deadLetter, m.DeliveryCount = (s.delivered.count m.ID : Int)) := by
  refine ⟨sampleSys_reachable, rfl, by decide, ?_⟩
  intro hall
  have h1 := hall sampleSys sampleSys_reachable ⟨"a", [1], 0, 2, 71⟩
    (by rw [sampleSys_eq]; exact List.mem_singleton.mpr rfl)
  rw [sampleSys_eq] at h1
  revert h1
  decide

/-- C2: on a queue with `maxDeliveryCount = N ≥ 0`, in every state reachable from a new
queue (ids fresh at publish): `Claim` has returned each message at most `N` times; a
message already returned `N` times is not returned by the next `Claim`, and when it is
the head of `pending` that `Claim` appends it to `deadLetter`; and along every further
run `deadLetter` only grows at its tail, a message in it is never returned again and
occurs in it exactly once. -/
theorem dead_letter_threshold (s : Sys) (h : Reachable s)
    (hN : 0 ≤ s.q.maxDeliveryCount) :
    (∀ id, (s.delivered.count id : Int) ≤ s.q.maxDeliveryCount) ∧
    (∀ id start wait clock r, (s.delivered.count id : Int) = s.q.maxDeliveryCount →
      (Claim start wait clock s.q).1 = .returned (.ok r) → r.ID ≠ id) ∧
    (∀ m rest start wait clock, s.q.pending = m :: rest →
      (s.delivered.count m.ID : Int) = s.q.maxDeliveryCount →
      s.q.deadLetter ++ [{ m with DeliveryCount := m.DeliveryCount + 1,
                                  VisibilityDeadline := clock 0 + s.q.leaseDuration }]
        <+: (Claim start wait clock s.q).2.deadLetter) ∧
    (∀ ops, ValidTrace s ops →
      s.q.deadLetter <+: (execAll ops s).q.deadLetter ∧
      ∀ m ∈ s.q.deadLetter,
        (execAll ops s).delivered.count m.ID = s.delivered.count m.ID ∧
        (ids (execAll ops s).q.deadLetter).count m.ID = 1) := by
  have hi := h.inv
  refine ⟨?_, ?_, ?_, ?_⟩
  · intro id
    rcases hi.bound id with h0 | h1
    · rw [h0]; exact hN
    · exact h1
  · intro id start wait clock r hc hr heq
    have h1 := (hi.claim_returned hr).bound r.ID
    have h2 : (Claim start wait clock s.q).2.maxDeliveryCount = s.q.maxDeliveryCount :=
      claimLoop_maxDeliveryCount _ _ _ _ _
    dsimp only at h1
    rw [h2, heq] at h1
    simp only [count_append_single, if_true] at h1
    push_cast at h1
    rcases h1 with h1 | h1
    · exact h1
    · omega
  · intro m rest start wait clock hp hc
    have h1 := (hi.pend m (by rw [hp]; exact List.mem_cons_self _ _)).1
    have hd : m.DeliveryCount + 1 > s.q.maxDeliveryCount := by omega
    simp only [Claim, hp, claimLoop, hd, if_true]
    refine List.IsPrefix.trans ?_ (claimLoop_deadLetter _ _ _ _ _)
    exact List.prefix_refl _
  · intro ops hv
    have hpre := execAll_deadLetter ops s
    have hi1 := (h.execAll ops hv).inv
    refine ⟨hpre, ?_⟩
    intro m hm
    have hm1 := hpre.subset hm
    have h1 := (hi.dead m hm).1
    have h2 := (hi1.dead m hm1).1
    have h3 := hi1.count_le_one m.ID
    have h4 := count_pos_of_mem_ids hm1
    rw [count_allIds] at h3
    constructor <;> omega

/-! ## The reclamation tick -/

theorem requeueLoop_pending (now : Int) (order : List String) :
    ∀ (cnt : Nat) (q : InMemoryQueue),
      q.pending <+: (requeueLoop now order cnt q).pending := by
  induction order with
  | nil => intro cnt q; exact List.prefix_refl _
  | cons id rest ih =>
    intro cnt q
    by_cases hc : cnt ≥ batchSize
    · simp only [requeueLoop, hc, if_true]; exact List.prefix_refl _
    · simp only [requeueLoop, hc, if_false]
      cases hg : mapGet id q.inFlight with
      | none => exact ih cnt q
      | some msg =>
        dsimp only
        by_cases he : msg.VisibilityDeadline < now
        · simp only [he, if_true]
          by_cases hd : msg.DeliveryCount > q.maxDeliveryCount
          · simp only [hd, if_true]
            refine List.IsPrefix.trans ?_ (ih (cnt + 1) _)
            exact List.prefix_refl _
          · simp only [hd, if_false]
            refine List.IsPrefix.trans ?_ (ih (cnt + 1) _)
            exact List.prefix_append _ _
        · simp only [he, if_false]
          exact ih cnt q

theorem requeueLoop_mapGet_none (now : Int) (k : String) (order : List String) :
    ∀ (cnt : Nat) (q : InMemoryQueue), mapGet k q.inFlight = none →
      mapGet k (requeueLoop now order cnt q).inFlight = none := by
  induction order with
  | nil => intro cnt q h; exact h
  | cons id rest ih =>
    intro cnt q h
    by_cases hc : cnt ≥ batchSize
    · simpa only [requeueLoop, hc, if_true] using h
    · simp only [requeueLoop, hc, if_false]
      cases hg : mapGet id q.inFlight with
      | none => exact ih cnt q h
      | some msg =>
        dsimp only
        have h1 : mapGet k (mapDelete id q.inFlight) = none := by
          rw [mapGet_mapDelete]; split <;> simp [h]
        by_cases he : msg.VisibilityDeadline < now
        · simp only [he, if_true]
          by_cases hd : msg.DeliveryCount > q.maxDeliveryCount
          · simp only [hd, if_true]
            exact ih (cnt + 1) _ h1
          · simp only [hd, if_false]
            exact ih (cnt + 1) _ h1
        · simp only [he, if_false]
          exact ih cnt q h

theorem expired_mapDelete_le (now : Int) (q q1 : InMemoryQueue) (id : String)
    (h : q1.inFlight = mapDelete id q.inFlight) (l : List String) :
    (l.filter (expired now q1)).length ≤ (l.filter (expired now q)).length := by
  induction l with
  | nil => simp
  | cons k rest ih =>
    have hk : expired now q1 k = true → expired now q k = true := by
      simp only [expired, h, mapGet_mapDelete]
      by_cases hkid : k = id
      · simp [hkid]
      · simp [hkid]
    simp only [List.filter_cons]
    cases h1 : expired now q1 k <;> cases h2 : expired now q k
    · simpa using ih
    · simp only [Bool.false_eq_true, if_false, if_true, List.length_cons]; omega
    · rw [h1, h2] at hk; exact absurd (hk rfl) (by simp)
    · simp only [if_true, List.length_cons]; omega

/-- An expired entry within the threshold, visited while the batch is not full, leaves
`inFlight` and lands in `pending` behind everything that was pending before. -/
theorem requeueLoop_requeues (now : Int) (id : String) (m : Message) (order : List String) :
    ∀ (cnt : Nat) (q : InMemoryQueue),
      cnt + (order.filter (expired now q)).length ≤ batchSize → id ∈ order →
      mapGet id q.inFlight = some m → m.VisibilityDeadline < now →
      ¬ (m.DeliveryCount > q.maxDeliveryCount) →
      mapGet id (requeueLoop now order cnt q).inFlight = none ∧
      ∃ a b, (requeueLoop now order cnt q).pending = q.pending ++ a ++ m :: b := by
  induction order with
  | nil => intro cnt q _ hmem; simp at hmem
  | cons id0 rest ih =>
    intro cnt q hb hmem hg he hd
    have hexp : expired now q id = true := by simp [expired, hg, he]
    have hpos : 0 < ((id0 :: rest).filter (expired now q)).length :=
      List.length_pos_of_mem (List.mem_filter.mpr ⟨hmem, hexp⟩)
    have hc : ¬ cnt ≥ batchSize := by omega
    simp only [requeueLoop, hc, if_false]
    by_cases hid : id0 = id
    · subst hid
      simp only [hg, he, if_true, hd, if_false]
      constructor
      · apply requeueLoop_mapGet_none
        simp [mapGet_mapDelete]
      · obtain ⟨b, hb1⟩ := requeueLoop_pending now rest (cnt + 1)
          { q with inFlight := mapDelete id0 q.inFlight, pending := q.pending ++ [m] }
        exact ⟨[], b, by rw [← hb1]; simp⟩
    · have hmem1 : id ∈ rest := by
        rcases List.mem_cons.mp hmem with h1 | h1
        · exact absurd h1.symm hid
        · exact h1
      have hne : ¬ id = id0 := fun e => hid e.symm
      cases hg0 : mapGet id0 q.inFlight with
      | none =>
        have hf : expired now q id0 = false := by simp [expired, hg0]
        simp only [List.filter_cons, hf, Bool.false_eq_true, if_false] at hb
        exact ih cnt q hb hmem1 hg he hd
      | some msg0 =>
        dsimp only
        by_cases he0 : msg0.VisibilityDeadline < now
        · have hf : expired now q id0 = true := by simp [expired, hg0, he0]
          simp only [List.filter_cons, hf, if_true, List.length_cons] at hb
          simp only [he0, if_true]
          by_cases hd0 : msg0.DeliveryCount > q.maxDeliveryCount
          · simp only [hd0, if_true]
            have hle := expired_mapDelete_le now q
              { q with inFlight := mapDelete id0 q.inFlight,
                       deadLetter := q.deadLetter ++ [msg0] } id0 rfl rest
            have h1 := ih (cnt + 1)
              { q with inFlight := mapDelete id0 q.inFlight,
                       deadLetter := q.deadLetter ++ [msg0] }
              (by omega) hmem1 (by simp [mapGet_mapDelete, hne, hg]) he hd
            exact h1
          · simp only [hd0, if_false]
            have hle := expired_mapDelete_le now q
              { q with inFlight := mapDelete id0 q.inFlight,
                       pending := q.pending ++ [msg0] } id0 rfl rest
            obtain ⟨h1, a, b, h2⟩ := ih (cnt + 1)
              { q with inFlight := mapDelete id0 q.inFlight,
                       pending := q.pending ++ [msg0] }
              (by omega) hmem1 (by simp [mapGet_mapDelete, hne, hg]) he hd
            exact ⟨h1, msg0 :: a, b, by rw [h2]; simp⟩
        · have hf : expired now q id0 = false := by simp [expired, hg0, he0]
          simp only [List.filter_cons, hf, Bool.false_eq_true, if_false] at hb
          simp only [he0, if_false]
          exact ih cnt q hb hmem1 hg he hd

/-! ## Ack -/

theorem Ack_of_none {id : String} {q : InMemoryQueue} (h : mapGet id q.inFlight = none) :
    Ack id q = (.error ("message not found in-flight: " ++ id), q) := by
  simp only [Ack, h]

theorem Ack_of_some {id : String} {q : InMemoryQueue} {v : Message}
    (h : mapGet id q.inFlight = some v) :
    Ack id q = (.ok (), { q with inFlight := mapDelete id q.inFlight }) := by
  simp only [Ack, h]

theorem mapGet_eq_none_iff (k : String) (m : MsgMap) :
    mapGet k m = none ↔ k ∉ mapKeys m := by
  rw [← mapGet_isSome_iff]
  cases mapGet k m <;> simp

/-- C4: `Ack id` succeeds exactly when `id` is a key of `inFlight`; on success `inFlight`
loses that key and nothing else changes, on failure the queue is unchanged; hence a second
`Ack` of the same id fails, and so does the `Ack` of an id whose message a reclamation
tick has moved back to `pending`, where the message stays. -/
theorem Ack_iff_in_flight (q : InMemoryQueue) (id : String) :
    ((Ack id q).1 = .ok () ↔ id ∈ mapKeys q.inFlight) ∧
    (id ∈ mapKeys q.inFlight →
      (∀ k, mapGet k (Ack id q).2.inFlight = if k = id then none else mapGet k q.inFlight) ∧
      mapKeys (Ack id q).2.inFlight = (mapKeys q.inFlight).filter (fun k => decide (k ≠ id)) ∧
      (Ack id q).2.pending = q.pending ∧ (Ack id q).2.deadLetter = q.deadLetter) ∧
    (id ∉ mapKeys q.inFlight →
      Ack id q = (.error ("message not found in-flight: " ++ id), q)) ∧
    Ack id (Ack id q).2 = (.error ("message not found in-flight: " ++ id), (Ack id q).2) ∧
    (∀ (m : Message) (now : Int) (order : List String),
      mapGet id q.inFlight = some m → m.VisibilityDeadline < now →
      ¬ (m.DeliveryCount > q.maxDeliveryCount) → id ∈ order →
      (order.filter (expired now q)).length ≤ batchSize →
      m ∈ (requeueTick now order q).pending ∧
      Ack id (requeueTick now order q) =
        (.error ("message not found in-flight: " ++ id), requeueTick now order q) ∧
      m ∈ (Ack id (requeueTick now order q)).2.pending) := by
  refine ⟨?_, ?_, ?_, ?_, ?_⟩
  · cases hg : mapGet id q.inFlight with
    | none =>
      rw [Ack_of_none hg]
      have := (mapGet_eq_none_iff id q.inFlight).mp hg
      simp [this]
    | some v =>
      rw [Ack_of_some hg]
      have := (mapGet_isSome_iff id q.inFlight).mp (by simp [hg])
      simp [this]
  · intro hmem
    have hs := (mapGet_isSome_iff id q.inFlight).mpr hmem
    cases hg : mapGet id q.inFlight with
    | none => simp [hg] at hs
    | some v =>
      rw [Ack_of_some hg]
      exact ⟨fun k => mapGet_mapDelete k id q.inFlight, mapKeys_mapDelete id q.inFlight,
        rfl, rfl⟩
  · intro hmem
    exact Ack_of_none ((mapGet_eq_none_iff id q.inFlight).mpr hmem)
  · apply Ack_of_none
    cases hg : mapGet id q.inFlight with
    | none => rw [Ack_of_none hg]; exact hg
    | some v => rw [Ack_of_some hg]; simp [mapGet_mapDelete]
  · intro m now order hg he hd hmem hb
    obtain ⟨h1, a, b, h2⟩ := requeueLoop_requeues now id m order 0 q (by omega) hmem hg he hd
    have h3 : m ∈ (requeueTick now order q).pending := by
      simp only [requeueTick, h2]; simp
    have h4 := Ack_of_none (q := requeueTick now order q) h1
    exact ⟨h3, h4, by rw [h4]; exact h3⟩

theorem Ack_iff_in_flight_witness :
    Ack "a" { name := "q", pending := [], inFlight := [("a", ⟨"a", [1], 0, 1, 30⟩)],
              deadLetter := [], maxDeliveryCount := 3, leaseDuration := 30 } =
      (.ok (), { name := "q", pending := [], inFlight := [],
                 deadLetter := [], maxDeliveryCount := 3, leaseDuration := 30 }) ∧
    (⟨"a", [1], 0, 1, 30⟩ : Message) ∈ (requeueTick 31 ["a"]
      { name := "q", pending := [], inFlight := [("a", ⟨"a", [1], 0, 1, 30⟩)],
        deadLetter := [], maxDeliveryCount := 3, leaseDuration := 30 }).pending ∧
    Ack "a" (requeueTick 31 ["a"]
      { name := "q", pending := [], inFlight := [("a", ⟨"a", [1], 0, 1, 30⟩)],
        deadLetter := [], maxDeliveryCount := 3, leaseDuration := 30 }) =
      (.error "message not found in-flight: a", requeueTick 31 ["a"]
        { name := "q", pending := [], inFlight := [("a", ⟨"a", [1], 0, 1, 30⟩)],
          deadLetter := [], maxDeliveryCount := 3, leaseDuration := 30 }) :=
  ⟨rfl,
   ((Ack_iff_in_flight
      { name := "q", pending := [], inFlight := [("a", ⟨"a", [1], 0, 1, 30⟩)],
        deadLetter := [], maxDeliveryCount := 3, leaseDuration := 30 } "a").2.2.2.2
      ⟨"a", [1], 0, 1, 30⟩ 31 ["a"] rfl (by decide) (by decide) (by decide)
      (by decide)).1,
   ((Ack_iff_in_flight
      { name := "q", pending := [], inFlight := [("a", ⟨"a", [1], 0, 1, 30⟩)],
        deadLetter := [], maxDeliveryCount := 3, leaseDuration := 30 } "a").2.2.2.2
      ⟨"a", [1], 0, 1, 30⟩ 31 ["a"] rfl (by decide) (by decide) (by decide)
      (by decide)).2.1⟩

/-! ## Redelivery after the lease -/

/-- A deliverable message `m` behind `pre` in `pending`: the loop returns `m`, or it
returns a message of `pre` and leaves `m` behind a shorter list. -/
theorem claimLoop_reaches (deadline : Int) (clock : Nat → Int) (m : Message)
    (post pre : List Message) :
    ∀ (i : Nat) (q : InMemoryQueue), ¬ (m.DeliveryCount + 1 > q.maxDeliveryCount) →
      (claimLoop deadline clock (pre ++ m :: post) i q).2.maxDeliveryCount
        = q.maxDeliveryCount ∧
      ((∃ msg, (claimLoop deadline clock (pre ++ m :: post) i q).1 = .returned (.ok msg) ∧
          msg.ID = m.ID ∧ msg.Payload = m.Payload ∧
          msg.DeliveryCount = m.DeliveryCount + 1) ∨
       (∃ pre1, (claimLoop deadline clock (pre ++ m :: post) i q).2.pending
          = pre1 ++ m :: post ∧ pre1.length < pre.length)) := by
  induction pre with
  | nil =>
    intro i q hd
    simp only [List.nil_append, claimLoop, hd, if_false, true_and]
    exact Or.inl ⟨_, rfl, rfl, rfl, rfl⟩
  | cons x pre ih =>
    intro i q hd
    by_cases hx : x.DeliveryCount + 1 > q.maxDeliveryCount
    · simp only [List.cons_append, claimLoop, hx, if_true]
      obtain ⟨h1, h2⟩ := ih (i + 1)
        { q with pending := pre ++ m :: post, deadLetter := q.deadLetter ++
          [{ x with DeliveryCount := x.DeliveryCount + 1,
                    VisibilityDeadline := clock i + q.leaseDuration }] } hd
      refine ⟨h1, ?_⟩
      rcases h2 with h2 | ⟨pre1, h3, h4⟩
      · exact Or.inl h2
      · exact Or.inr ⟨pre1, h3, by simp only [List.length_cons]; omega⟩
    · simp only [List.cons_append, claimLoop, hx, if_false, true_and]
      exact Or.inr ⟨pre, rfl, by simp⟩

/-- With nothing but `Claim` calls, a deliverable message behind `pre` in `pending` is
returned by one of the next `pre.length + 1` calls. -/
theorem claimAll_reaches (m : Message) (post : List Message)
    (calls : List (Int × Int × (Nat → Int))) :
    ∀ (pre : List Message) (q : InMemoryQueue), q.pending = pre ++ m :: post →
      ¬ (m.DeliveryCount + 1 > q.maxDeliveryCount) → pre.length < calls.length →
      ∃ j msg, (claimAll calls q).1.get? j = some (.returned (.ok msg)) ∧
        msg.ID = m.ID ∧ msg.Payload = m.Payload ∧
        msg.DeliveryCount = m.DeliveryCount + 1 := by
  induction calls with
  | nil => intro pre q _ _ hl; simp at hl
  | cons call calls ih =>
    intro pre q hp hd hl
    obtain ⟨start, wait, clock⟩ := call
    obtain ⟨h1, h2⟩ := claimLoop_reaches (start + wait) clock m post pre 0 q hd
    rw [← hp] at h1 h2
    rcases h2 with ⟨msg, h3, h4⟩ | ⟨pre1, h3, h4⟩
    · exact ⟨0, msg, by simp only [claimAll, Claim, List.get?_cons_zero, h3], h4⟩
    · obtain ⟨j, msg, h5, h6⟩ := ih pre1 (Claim start wait clock q).2 h3
        (by rw [Claim, h1]; exact hd) (by simp only [List.length_cons] at hl; omega)
      exact ⟨j + 1, msg, by simpa only [claimAll, List.get?_cons_succ] using h5, h6⟩

theorem requeueLoop_maxDeliveryCount (now : Int) (order : List String) :
    ∀ (cnt : Nat) (q : InMemoryQueue),
      (requeueLoop now order cnt q).maxDeliveryCount = q.maxDeliveryCount := by
  induction order with
  | nil => intro cnt q; rfl
  | cons id rest ih =>
    intro cnt q
    by_cases hc : cnt ≥ batchSize
    · simp only [requeueLoop, hc, if_true]
    · simp only [requeueLoop, hc, if_false]
      cases hg : mapGet id q.inFlight with
      | none => exact ih cnt q
      | some msg =>
        dsimp only
        by_cases he : msg.VisibilityDeadline < now
        · simp only [he, if_true]
          by_cases hd : msg.DeliveryCount > q.maxDeliveryCount
          · simp only [hd, if_true]; exact ih (cnt + 1) _
          · simp only [hd, if_false]; exact ih (cnt + 1) _
        · simp only [he, if_false]
          exact ih cnt q

theorem twoInFlight_reachable : Reachable twoInFlight :=
  Reachable.execAll _ (Reachable.init "q" 30 3)
    ⟨(by show "a" ∉ ([] : List String); decide), (by show "b" ∉ ["a"]; decide),
      trivial, trivial, trivial⟩

/-- C10 (amended): a message `m` in flight (returned by `Claim` at time `t`, not acked)
with `DeliveryCount < maxDeliveryCount`, and a tick later than `t + leaseDuration` with at
most 100 expired entries: after the tick `m` has left `inFlight` and is in `pending`
behind every message that was pending before (other messages requeued by the same tick
may precede or follow it); from then on, with only `Claim` calls, one of the next calls
(as many as there are messages ahead of `m`, plus one) returns `m` with the count one
higher, and so does any `Claim` on a queue where `m` is the head of `pending`. -/
theorem redelivery_after_lease (q : InMemoryQueue) (id : String) (m : Message)
    (t now : Int) (order : List String)
    (hg : mapGet id q.inFlight = some m)
    (ht : m.VisibilityDeadline = t + q.leaseDuration) (hnow : t + q.leaseDuration < now)
    (hdc : m.DeliveryCount < q.maxDeliveryCount)
    (hord : order.Perm (mapKeys q.inFlight))
    (hb : (order.filter (expired now q)).length ≤ batchSize) :
    mapGet id (requeueTick now order q).inFlight = none ∧
    ∃ a b, (requeueTick now order q).pending = q.pending ++ a ++ m :: b ∧
      (∀ calls : List (Int × Int × (Nat → Int)), (q.pending ++ a).length < calls.length →
        ∃ j msg, (claimAll calls (requeueTick now order q)).1.get? j
            = some (.returned (.ok msg)) ∧
          msg.ID = m.ID ∧ msg.Payload = m.Payload ∧
          msg.DeliveryCount = m.DeliveryCount + 1) ∧
      (∀ (q2 : InMemoryQueue) (rest : List Message) (start wait : Int) (clock : Nat → Int),
        q2.pending = m :: rest → q2.maxDeliveryCount = q.maxDeliveryCount →
        ∃ msg, (Claim start wait clock q2).1 = .returned (.ok msg) ∧
          msg.ID = m.ID ∧ msg.Payload = m.Payload ∧
          msg.DeliveryCount = m.DeliveryCount + 1) := by
  have hmem : id ∈ order :=
    hord.symm.subset ((mapGet_isSome_iff id q.inFlight).mp (by simp [hg]))
  have hd : ¬ (m.DeliveryCount > q.maxDeliveryCount) := by omega
  have hd1 : ¬ (m.DeliveryCount + 1 > q.maxDeliveryCount) := by omega
  obtain ⟨h1, a, b, h2⟩ := requeueLoop_requeues now id m order 0 q (by omega) hmem hg
    (by omega) hd
  refine ⟨h1, a, b, h2, ?_, ?_⟩
  · intro calls hl
    refine claimAll_reaches m b calls (q.pending ++ a) (requeueTick now order q) h2 ?_ hl
    rw [requeueTick, requeueLoop_maxDeliveryCount]
    exact hd1
  · intro q2 rest start wait clock hp hmax
    have h3 := (claimLoop_reaches (start + wait) clock m rest [] 0 q2 (by omega)).2
    simp only [List.nil_append, List.length_nil, Nat.not_lt_zero, and_false, exists_false,
      or_false] at h3
    rw [Claim, hp]
    exact h3

/-- C10 as stated fails: `"a"` and `"b"` expire together, the tick visits `"a"` first,
and `"a"` ends up in `pending` ahead of `"b"`, not at the tail. -/
theorem redelivery_tail_counterexample :
    Reachable twoInFlight ∧
    mapGet "a" twoInFlight.q.inFlight = some ⟨"a", [1], 0, 1, 30⟩ ∧
    (1 : Int) < twoInFlight.q.maxDeliveryCount ∧
    (30 : Int) = 0 + twoInFlight.q.leaseDuration ∧
    (["a", "b"].filter (expired 31 twoInFlight.q)).length ≤ batchSize ∧
    ValidOp twoInFlight (.tick 31 ["a", "b"]) ∧
    (exec (.tick 31 ["a", "b"]) twoInFlight).q.pending =
      [⟨"a", [1], 0, 1, 30⟩, ⟨"b", [2], 0, 1, 30⟩] ∧
    (exec (.tick 31 ["a", "b"]) twoInFlight).q.pending.getLast? ≠
      some ⟨"a", [1], 0, 1, 30⟩ := by
  refine ⟨twoInFlight_reachable, rfl, by decide, by decide, by decide, ?_, rfl, by decide⟩
  show List.Perm ["a", "b"] ["a", "b"]
  exact List.Perm.refl _

theorem redelivery_after_lease_witness :
    mapGet "a" (requeueTick 31 ["a", "b"] twoInFlight.q).inFlight = none ∧
    ∃ a b, (requeueTick 31 ["a", "b"] twoInFlight.q).pending
        = twoInFlight.q.pending ++ a ++ (⟨"a", [1], 0, 1, 30⟩ : Message) :: b ∧
      (∀ calls : List (Int × Int × (Nat → Int)),
        (twoInFlight.q.pending ++ a).length < calls.length →
        ∃ j msg, (claimAll calls (requeueTick 31 ["a", "b"] twoInFlight.q)).1.get? j
            = some (.returned (.ok msg)) ∧
          msg.ID = "a" ∧ msg.Payload = [1] ∧ msg.DeliveryCount = 1 + 1) ∧
      (∀ (q2 : InMemoryQueue) (rest : List Message) (start wait : Int) (clock : Nat → Int),
        q2.pending = (⟨"a", [1], 0, 1, 30⟩ : Message) :: rest →
        q2.maxDeliveryCount = twoInFlight.q.maxDeliveryCount →
        ∃ msg, (Claim start wait clock q2).1 = .returned (.ok msg) ∧
          msg.ID = "a" ∧ msg.Payload = [1] ∧ msg.DeliveryCount = 1 + 1) :=
  redelivery_after_lease twoInFlight.q "a" ⟨"a", [1], 0, 1, 30⟩ 0 31 ["a", "b"]
    rfl rfl (by decide) (by decide) (List.Perm.refl _) (by decide)

theorem sampleMid_reachable : Reachable sampleMid :=
  Reachable.execAll _ (Reachable.init "q" 30 1)
    ⟨(by show "a" ∉ ([] : List String); decide), (by show "b" ∉ ["a"]; decide),
      trivial, trivial, trivial, (by show List.Perm ["a"] ["a"]; exact List.Perm.refl _),
      trivial⟩

theorem dead_letter_threshold_witness :
    (0 : Int) ≤ sampleMid.q.maxDeliveryCount ∧
    sampleMid.q.pending = [⟨"a", [1], 0, 1, 32⟩] ∧
    (sampleMid.delivered.count "a" : Int) = sampleMid.q.maxDeliveryCount ∧
    sampleMid.q.deadLetter ++ [⟨"a", [1], 0, 2, 71⟩]
      <+: (Claim 41 0 (fun _ => 41) sampleMid.q).2.deadLetter :=
  ⟨by decide, rfl, by decide,
   (dead_letter_threshold sampleMid sampleMid_reachable (by decide)).2.2.1
      ⟨"a", [1], 0, 1, 32⟩ [] 41 0 (fun _ => 41) rfl (by decide)⟩

/-! ## The wait of `Claim` -/

/-- A call parked in `q.cond.Wait()` stays parked through any number of events that do not
signal the condition variable, whatever their times. -/
theorem runCall_quiet (clock : Nat → Int) (d : Int) (evs : List (Op × Int)) :
    ∀ q : InMemoryQueue, Quiet evs q → (runCall clock evs (.parked d, q)).1 = .parked d := by
  induction evs with
  | nil => intro q _; rfl
  | cons ev evs ih =>
    intro q hq
    obtain ⟨op, t⟩ := ev
    obtain ⟨h1, h2⟩ := hq
    simp only [runCall, stepCall, h1, Bool.false_eq_true, if_false]
    exact ih _ h2

/-- C6 fails on the code: `Claim` with a wait of 200 on a new (empty) queue suspends in
`q.cond.Wait()`, and with no `Publish` and no requeue afterwards it is still suspended
after any run of other events, however late: it never returns the timeout error. -/
theorem Claim_wait_unbounded :
    Claim 0 200 (fun _ => 0) (NewInMemoryQueue "q" 30 3)
      = (.waits, NewInMemoryQueue "q" 30 3) ∧
    (∀ (evs : List (Op × Int)) (clock : Nat → Int), Quiet evs (NewInMemoryQueue "q" 30 3) →
      (runCall clock evs (.parked (0 + 200), NewInMemoryQueue "q" 30 3)).1
        = .parked (0 + 200)) ∧
    (∀ clock : Nat → Int,
      (runCall clock [(.stats, 201), (.ack "x", 1000), (.tick 5000 [], 5000),
          (.tick 1000000 [], 1000000)]
        (.parked (0 + 200), NewInMemoryQueue "q" 30 3)).1 = .parked (0 + 200)) := by
  refine ⟨rfl, fun evs clock h => runCall_quiet clock _ evs _ h, fun clock => rfl⟩

/-! ## Ack and the lease -/

/-- C11 (amended): `Ack` never looks at the clock.  While a message is in `inFlight`,
`Ack` succeeds and removes it even when its deadline is before the time of the call; the
not-in-flight error comes once a reclamation tick has taken the expired message out of
`inFlight`. -/
theorem Ack_ignores_lease (q : InMemoryQueue) (id : String) (m : Message) (now : Int)
    (hg : mapGet id q.inFlight = some m) (hexp : m.VisibilityDeadline < now) :
    Ack id q = (.ok (), { q with inFlight := mapDelete id q.inFlight }) ∧
    mapGet id (Ack id q).2.inFlight = none ∧
    (∀ order : List String, id ∈ order →
      ¬ (m.DeliveryCount > q.maxDeliveryCount) →
      (order.filter (expired now q)).length ≤ batchSize →
      Ack id (requeueTick now order q) =
        (.error ("message not found in-flight: " ++ id), requeueTick now order q)) := by
  refine ⟨Ack_of_some hg, ?_, ?_⟩
  · rw [Ack_of_some hg]
    simp [mapGet_mapDelete]
  · intro order hmem hd hb
    exact Ack_of_none
      (requeueLoop_requeues now id m order 0 q (by omega) hmem hg hexp hd).1

theorem Ack_ignores_lease_witness :
    Ack "a" { name := "q", pending := [], inFlight := [("a", ⟨"a", [1], 0, 1, 30⟩)],
              deadLetter := [], maxDeliveryCount := 3, leaseDuration := 30 } =
      (.ok (), { name := "q", pending := [], inFlight := [],
                 deadLetter := [], maxDeliveryCount := 3, leaseDuration := 30 }) :=
  (Ack_ignores_lease
    { name := "q", pending := [], inFlight := [("a", ⟨"a", [1], 0, 1, 30⟩)],
      deadLetter := [], maxDeliveryCount := 3, leaseDuration := 30 }
    "a" ⟨"a", [1], 0, 1, 30⟩ 31 rfl (by decide)).1

/-- C11 as stated fails: the message `"a"` is in flight with deadline 30; an `Ack` issued
at time 31, before any tick has run, succeeds. -/
theorem Ack_expired_counterexample :
    mapGet "a" twoInFlight.q.inFlight = some ⟨"a", [1], 0, 1, 30⟩ ∧
    (30 : Int) < 31 ∧
    (Ack "a" twoInFlight.q).1 = .ok () ∧
    mapGet "a" (Ack "a" twoInFlight.q).2.inFlight = none := by
  refine ⟨rfl, by decide, rfl, rfl⟩

/-! ## Immediate timeout -/

/-- C19: with nothing pending, a `Claim` whose deadline `start + wait` is reached at the
check returns the timeout error and leaves the queue as it is; this covers every
`wait ≤ 0`, the clock never running backwards. -/
theorem Claim_immediate_timeout (q : InMemoryQueue) (start wait : Int) (clock : Nat → Int)
    (hp : q.pending = []) :
    (start + wait ≤ clock 0 →
      Claim start wait clock q = (.returned (.error errTimeout), q)) ∧
    (wait ≤ 0 → start ≤ clock 0 →
      Claim start wait clock q = (.returned (.error errTimeout), q)) := by
  have key : start + wait ≤ clock 0 →
      Claim start wait clock q = (.returned (.error errTimeout), q) := by
    intro h
    have h1 : start + wait - clock 0 ≤ 0 := by omega
    simp only [Claim, hp, claimLoop, h1, if_true]
  exact ⟨key, fun hw hs => key (by omega)⟩

theorem Claim_immediate_timeout_witness :
    Claim 5 0 (fun _ => 5) (NewInMemoryQueue "q" 30 3)
      = (.returned (.error errTimeout), NewInMemoryQueue "q" 30 3) ∧
    Claim 5 (-2) (fun _ => 6) (NewInMemoryQueue "q" 30 3)
      = (.returned (.error errTimeout), NewInMemoryQueue "q" 30 3) :=
  ⟨(Claim_immediate_timeout (NewInMemoryQueue "q" 30 3) 5 0 (fun _ => 5) rfl).1
      (by decide),
   (Claim_immediate_timeout (NewInMemoryQueue "q" 30 3) 5 (-2) (fun _ => 6) rfl).2
      (by decide) (by decide)⟩

/-! ## Poisoned messages inside one `Claim` -/

theorem poisoned_iff (maxDelivery : Int) (m : Message) :
    poisoned maxDelivery m = true ↔ m.DeliveryCount + 1 > maxDelivery := by
  simp only [poisoned, decide_eq_true_eq]
  omega

/-- The loop of the source computes what `claimSpec` describes. -/
theorem claimLoop_eq_claimSpec (deadline : Int) (clock : Nat → Int) (pend : List Message) :
    ∀ (i : Nat) (q : InMemoryQueue), q.pending = pend →
      claimLoop deadline clock pend i q = claimSpec deadline clock i q := by
  induction pend with
  | nil =>
    intro i q hp
    obtain ⟨name, pending, inFlight, deadLetter, maxD, lease⟩ := q
    simp only at hp
    subst hp
    simp only [claimLoop, claimSpec, bumpFrom, List.takeWhile_nil, List.dropWhile_nil,
      List.append_nil, List.length_nil, Nat.add_zero]
    split <;> rfl
  | cons m rest ih =>
    intro i q hp
    by_cases hd : m.DeliveryCount + 1 > q.maxDeliveryCount
    · have hpo : poisoned q.maxDeliveryCount m = true := (poisoned_iff _ _).mpr hd
      simp only [claimLoop, hd, if_true]
      rw [ih (i + 1) _ rfl]
      simp only [claimSpec, hp, List.takeWhile_cons, hpo, if_true, List.dropWhile_cons,
        bumpFrom, List.length_cons, List.append_assoc, List.singleton_append, bump]
      have hidx : i + 1 + (List.takeWhile (poisoned q.maxDeliveryCount) rest).length
          = i + ((List.takeWhile (poisoned q.maxDeliveryCount) rest).length + 1) := by omega
      rw [hidx]
    · have hpo : poisoned q.maxDeliveryCount m = false := by
        cases h : poisoned q.maxDeliveryCount m
        · rfl
        · exact absurd ((poisoned_iff _ _).mp h) hd
      simp only [claimLoop, hd, if_false, claimSpec, hp, List.takeWhile_cons, hpo,
        List.dropWhile_cons, bumpFrom, List.length_nil, List.append_nil, Nat.add_zero, bump,
        Bool.false_eq_true]

theorem bumpFrom_get? (clock : Nat → Int) (lease : Int) (ms : List Message) :
    ∀ (i j : Nat), (bumpFrom clock lease i ms).get? j
      = (ms.get? j).map (bump clock lease (i + j)) := by
  induction ms with
  | nil => intro i j; simp [bumpFrom]
  | cons m rest ih =>
    intro i j
    cases j with
    | zero => simp [bumpFrom]
    | succ j =>
      simp only [bumpFrom, List.get?_cons_succ, ih (i + 1) j]
      have : i + 1 + j = i + (j + 1) := by omega
      rw [this]

theorem bumpFrom_length (clock : Nat → Int) (lease : Int) (ms : List Message) :
    ∀ i : Nat, (bumpFrom clock lease i ms).length = ms.length := by
  induction ms with
  | nil => intro i; rfl
  | cons m rest ih => intro i; simp [bumpFrom, ih (i + 1)]

theorem dropWhile_head_not (p : Message → Bool) (l : List Message) (m : Message)
    (rest : List Message) (h : l.dropWhile p = m :: rest) : p m = false := by
  induction l with
  | nil => simp at h
  | cons a l ih =>
    cases hp : p a
    · simp only [List.dropWhile_cons, hp, Bool.false_eq_true, if_false] at h
      have := (List.cons.inj h).1
      rw [← this]; exact hp
    · simp only [List.dropWhile_cons, hp, if_true] at h
      exact ih h

theorem wrapInt64_of_range (x : Int) (h1 : minInt64 ≤ x) (h2 : x ≤ maxInt64) :
    wrapInt64 x = x := by
  simp only [minInt64, maxInt64] at h1 h2
  simp only [wrapInt64]
  omega

/-- The loop with the 64-bit increment is `claimLoop` on every list of pending messages
whose counts are Go `int`s below the largest one. -/
theorem claimLoop64_eq_claimLoop (deadline : Int) (clock : Nat → Int)
    (pend : List Message) :
    ∀ (i : Nat) (q : InMemoryQueue),
      (∀ m ∈ pend, minInt64 ≤ m.DeliveryCount ∧ m.DeliveryCount < maxInt64) →
      claimLoop64 deadline clock pend i q = claimLoop deadline clock pend i q := by
  induction pend with
  | nil => intro i q _; rfl
  | cons m rest ih =>
    intro i q h
    have hm := h m (List.mem_cons_self _ _)
    have hw : wrapInt64 (m.DeliveryCount + 1) = m.DeliveryCount + 1 :=
      wrapInt64_of_range _ (by omega) (by omega)
    have hrest : ∀ m1 ∈ rest, minInt64 ≤ m1.DeliveryCount ∧ m1.DeliveryCount < maxInt64 :=
      fun m1 h1 => h m1 (List.mem_cons_of_mem _ h1)
    simp only [claimLoop64, claimLoop, hw]
    split
    · exact ih (i + 1) _ hrest
    · rfl

/-- C17 (amended): on a queue whose pending messages have a `DeliveryCount` below the
largest `int`, let `pre` be the longest prefix of `pending` whose messages have
`DeliveryCount ≥ maxDeliveryCount`.  One `Claim` appends exactly the messages of `pre`, in
order and each with the count one higher, to the tail of `deadLetter` and returns none of
them; it returns the message behind `pre` when there is one, and otherwise reaches the
empty-pending branch; it pops `pre.length` or `pre.length + 1` messages, never more than
`pending` holds. -/
theorem Claim_filters_poisoned (q : InMemoryQueue) (start wait : Int) (clock : Nat → Int)
    (hrange : ∀ m ∈ q.pending, minInt64 ≤ m.DeliveryCount ∧ m.DeliveryCount < maxInt64) :
    Claim64 start wait clock q = claimSpec (start + wait) clock 0 q ∧
    (Claim64 start wait clock q).2.deadLetter = q.deadLetter ++
      bumpFrom clock q.leaseDuration 0 (q.pending.takeWhile (poisoned q.maxDeliveryCount)) ∧
    (∀ j, (bumpFrom clock q.leaseDuration 0
        (q.pending.takeWhile (poisoned q.maxDeliveryCount))).get? j =
      ((q.pending.takeWhile (poisoned q.maxDeliveryCount)).get? j).map
        (fun m => { m with DeliveryCount := m.DeliveryCount + 1,
                           VisibilityDeadline := clock j + q.leaseDuration })) ∧
    (∀ m ∈ q.pending.takeWhile (poisoned q.maxDeliveryCount),
      m.DeliveryCount ≥ q.maxDeliveryCount) ∧
    (∀ r, (Claim64 start wait clock q).1 = .returned (.ok r) →
      r.DeliveryCount ≤ q.maxDeliveryCount) ∧
    (∀ m rest, q.pending.dropWhile (poisoned q.maxDeliveryCount) = m :: rest →
      m.DeliveryCount < q.maxDeliveryCount ∧
      (Claim64 start wait clock q).1 = .returned (.ok
        { m with DeliveryCount := m.DeliveryCount + 1,
                 VisibilityDeadline :=
                   clock (q.pending.takeWhile (poisoned q.maxDeliveryCount)).length
                     + q.leaseDuration }) ∧
      (Claim64 start wait clock q).2.pending = rest ∧
      q.pending.length = (q.pending.takeWhile (poisoned q.maxDeliveryCount)).length + 1
        + (Claim64 start wait clock q).2.pending.length) ∧
    (q.pending.dropWhile (poisoned q.maxDeliveryCount) = [] →
      ((Claim64 start wait clock q).1 = .returned (.error errTimeout) ∨
        (Claim64 start wait clock q).1 = .waits) ∧
      (Claim64 start wait clock q).2.pending = [] ∧
      q.pending.length = (q.pending.takeWhile (poisoned q.maxDeliveryCount)).length) := by
  have heq : Claim64 start wait clock q = claimSpec (start + wait) clock 0 q :=
    (claimLoop64_eq_claimLoop (start + wait) clock q.pending 0 q hrange).trans
      (claimLoop_eq_claimSpec (start + wait) clock q.pending 0 q rfl)
  have hlen : q.pending.length
      = (q.pending.takeWhile (poisoned q.maxDeliveryCount)).length
        + (q.pending.dropWhile (poisoned q.maxDeliveryCount)).length := by
    have := congrArg List.length
      (List.takeWhile_append_dropWhile (poisoned q.maxDeliveryCount) q.pending)
    rw [List.length_append] at this
    exact this.symm
  refine ⟨heq, ?_, ?_, ?_, ?_, ?_, ?_⟩
  · rw [heq]
    simp only [claimSpec]
    split <;> rfl
  · intro j
    rw [bumpFrom_get?]
    simp only [Nat.zero_add]
    rfl
  · intro m hm
    have := List.mem_takeWhile_imp hm
    simpa [poisoned] using this
  · intro r hr
    rw [heq] at hr
    simp only [claimSpec] at hr
    split at hr
    · split at hr <;> simp at hr
    · next m rest hdw =>
      have hnp := dropWhile_head_not _ _ _ _ hdw
      simp only [poisoned, decide_eq_false_iff_not, ge_iff_le, not_le] at hnp
      simp only [ClaimStep.returned.injEq, Except.ok.injEq] at hr
      rw [← hr]
      simp only [bump]
      omega
  · intro m rest hdw
    have hnp := dropWhile_head_not _ _ _ _ hdw
    simp only [poisoned, decide_eq_false_iff_not, ge_iff_le, not_le] at hnp
    rw [heq]
    simp only [claimSpec, hdw, Nat.zero_add, bump, true_and]
    refine ⟨hnp, ?_⟩
    rw [hlen, hdw]
    simp only [List.length_cons]
    omega
  · intro hdw
    rw [heq]
    simp only [claimSpec, hdw, true_and]
    refine ⟨?_, ?_⟩
    · split
      · exact Or.inl rfl
      · exact Or.inr rfl
    · rw [hlen, hdw]; rfl

theorem Claim_filters_poisoned_witness :
    Claim64 0 5 (fun i => 10 + i)
      { name := "q", pending := [⟨"p", [], 0, 3, 9⟩, ⟨"r", [], 0, 4, 9⟩, ⟨"m", [7], 0, 1, 9⟩,
          ⟨"x", [], 0, 0, 0⟩],
        inFlight := [], deadLetter := [], maxDeliveryCount := 3, leaseDuration := 30 } =
      (.returned (.ok ⟨"m", [7], 0, 2, 42⟩),
       { name := "q", pending := [⟨"x", [], 0, 0, 0⟩],
         inFlight := [("m", ⟨"m", [7], 0, 2, 42⟩)],
         deadLetter := [⟨"p", [], 0, 4, 40⟩, ⟨"r", [], 0, 5, 41⟩],
         maxDeliveryCount := 3, leaseDuration := 30 }) :=
  (Claim_filters_poisoned
    { name := "q", pending := [⟨"p", [], 0, 3, 9⟩, ⟨"r", [], 0, 4, 9⟩, ⟨"m", [7], 0, 1, 9⟩,
        ⟨"x", [], 0, 0, 0⟩],
      inFlight := [], deadLetter := [], maxDeliveryCount := 3, leaseDuration := 30 }
    0 5 (fun i => 10 + i) (by decide)).1.trans rfl

/-- C17 as stated fails: the only pending message has `DeliveryCount = maxDeliveryCount`,
the largest `int`, so it is the poisoned prefix; the increment wraps to the smallest
`int`, the threshold test fails, and `Claim` returns the message instead of appending it
to `deadLetter`. -/
theorem Claim_wraps_counterexample :
    [(⟨"p", [], 0, 9223372036854775807, 0⟩ : Message)].takeWhile
        (poisoned 9223372036854775807) = [⟨"p", [], 0, 9223372036854775807, 0⟩] ∧
    Claim64 0 5 (fun _ => 10)
      { name := "q", pending := [⟨"p", [], 0, 9223372036854775807, 0⟩], inFlight := [],
        deadLetter := [], maxDeliveryCount := 9223372036854775807, leaseDuration := 30 } =
      (.returned (.ok ⟨"p", [], 0, -9223372036854775808, 40⟩),
       { name := "q", pending := [],
         inFlight := [("p", ⟨"p", [], 0, -9223372036854775808, 40⟩)],
         deadLetter := [], maxDeliveryCount := 9223372036854775807,
         leaseDuration := 30 }) := by
  refine ⟨by decide, rfl⟩

/-! ## Delivery counts of in-flight messages -/

theorem claimLoop_countsOk (deadline : Int) (clock : Nat → Int) (pend : List Message) :
    ∀ (i : Nat) (q : InMemoryQueue), CountsOk q → q.pending = pend →
      CountsOk (claimLoop deadline clock pend i q).2 := by
  induction pend with
  | nil =>
    intro i q h _
    by_cases hr : deadline - clock i ≤ 0
    · simpa only [claimLoop, hr, if_true] using h
    · simpa only [claimLoop, hr, if_false] using h
  | cons m rest ih =>
    intro i q h hp
    have hm := h.1 m (by rw [hp]; exact List.mem_cons_self _ _)
    have hrest : ∀ m1 ∈ rest, m1 ∈ q.pending := fun m1 h1 => by
      rw [hp]; exact List.mem_cons_of_mem _ h1
    by_cases hd : m.DeliveryCount + 1 > q.maxDeliveryCount
    · simp only [claimLoop, hd, if_true]
      exact ih (i + 1) _ ⟨fun m1 h1 => h.1 m1 (hrest m1 h1), h.2⟩ rfl
    · simp only [claimLoop, hd, if_false]
      refine ⟨fun m1 h1 => h.1 m1 (hrest m1 h1), ?_⟩
      intro e he
      simp only [mapSet, List.mem_append, List.mem_singleton] at he
      rcases he with he | he
      · exact h.2 e (mem_mapDelete he).1
      · subst he
        dsimp only
        omega

theorem requeueLoop_countsOk (now : Int) (order : List String) :
    ∀ (cnt : Nat) (q : InMemoryQueue), CountsOk q →
      CountsOk (requeueLoop now order cnt q) ∧
      (requeueLoop now order cnt q).deadLetter = q.deadLetter := by
  induction order with
  | nil => intro cnt q h; exact ⟨h, rfl⟩
  | cons id rest ih =>
    intro cnt q h
    by_cases hc : cnt ≥ batchSize
    · simp only [requeueLoop, hc, if_true, and_true]; exact h
    · simp only [requeueLoop, hc, if_false]
      cases hg : mapGet id q.inFlight with
      | none => exact ih cnt q h
      | some msg =>
        dsimp only
        by_cases he : msg.VisibilityDeadline < now
        · have hmsg := h.2 _ (mem_of_mapGet hg)
          dsimp only at hmsg
          have hd : ¬ (msg.DeliveryCount > q.maxDeliveryCount) := by omega
          simp only [he, if_true, hd, if_false]
          refine ih (cnt + 1) _ ⟨?_, ?_⟩
          · intro m1 h1
            simp only [List.mem_append, List.mem_singleton] at h1
            rcases h1 with h1 | h1
            · exact h.1 m1 h1
            · subst h1; exact Or.inr hmsg
          · intro e he1
            exact h.2 e (mem_mapDelete he1).1
        · simp only [he, if_false]
          exact ih cnt q h

theorem exec_countsOk (op : Op) (s : Sys) (h : CountsOk s.q) : CountsOk (exec op s).q := by
  cases op with
  | publish gen payload now =>
    cases gen with
    | error err => exact h
    | ok id =>
      refine ⟨?_, h.2⟩
      intro m1 h1
      simp only [exec, Publish, List.mem_append, List.mem_singleton] at h1
      rcases h1 with h1 | h1
      · exact h.1 m1 h1
      · subst h1; exact Or.inl rfl
  | claim start wait clock =>
    have h1 := claimLoop_countsOk (start + wait) clock s.q.pending 0 s.q h rfl
    rw [exec_claim_eq]
    split
    · next heq => rw [heq] at h1; exact h1
    · next heq => rw [heq] at h1; exact h1
  | ack messageID =>
    cases hg : mapGet messageID s.q.inFlight with
    | none => simpa only [exec, Ack, hg] using h
    | some v =>
      simp only [exec, Ack, hg]
      exact ⟨h.1, fun e he => h.2 e (mem_mapDelete he).1⟩
  | stats => exact h
  | tick now order => exact (requeueLoop_countsOk now order 0 s.q h).1

theorem execAll_countsOk (ops : List Op) :
    ∀ s : Sys, CountsOk s.q → CountsOk (execAll ops s).q := by
  induction ops with
  | nil => intro s h; exact h
  | cons op rest ih => intro s h; exact ih _ (exec_countsOk op s h)

theorem execAll_maxDeliveryCount (ops : List Op) :
    ∀ s : Sys, (execAll ops s).q.maxDeliveryCount = s.q.maxDeliveryCount := by
  induction ops with
  | nil => intro s; rfl
  | cons op rest ih =>
    intro s
    rw [execAll, ih]
    cases op with
    | publish gen payload now =>
      cases gen <;> rfl
    | claim start wait clock =>
      have h1 := claimLoop_maxDeliveryCount (start + wait) clock s.q.pending 0 s.q
      rw [exec_claim_eq]
      split
      · next heq => rw [heq] at h1; exact h1
      · next heq => rw [heq] at h1; exact h1
    | ack messageID =>
      cases hg : mapGet messageID s.q.inFlight <;> simp only [exec, Ack, hg]
    | stats => rfl
    | tick now order => exact requeueLoop_maxDeliveryCount now order 0 s.q

/-- C20: after any run of `Publish`, `Claim`, `Ack`, `Stats` and ticks on a new queue,
every message in `inFlight` has `1 ≤ DeliveryCount ≤ maxDeliveryCount`; hence a tick
never takes its dead-letter branch (it leaves `deadLetter` as it is), and no operation
other than `Claim` changes `deadLetter`. -/
theorem in_flight_count_bound (name : String) (lease maxDelivery : Int) (ops : List Op) :
    (∀ e ∈ (execAll ops (Sys.init name lease maxDelivery)).q.inFlight,
      1 ≤ e.2.DeliveryCount ∧ e.2.DeliveryCount ≤ maxDelivery) ∧
    (∀ (now : Int) (order : List String),
      (requeueTick now order (execAll ops (Sys.init name lease maxDelivery)).q).deadLetter
        = (execAll ops (Sys.init name lease maxDelivery)).q.deadLetter) ∧
    (∀ op : Op, op.isClaim = false →
      (exec op (execAll ops (Sys.init name lease maxDelivery))).q.deadLetter
        = (execAll ops (Sys.init name lease maxDelivery)).q.deadLetter) := by
  have h0 : CountsOk (Sys.init name lease maxDelivery).q := by
    constructor <;> intro x hx <;> simp [Sys.init, NewInMemoryQueue] at hx
  have h1 := execAll_countsOk ops _ h0
  have h2 : (execAll ops (Sys.init name lease maxDelivery)).q.maxDeliveryCount
      = maxDelivery := execAll_maxDeliveryCount ops _
  refine ⟨?_, ?_, ?_⟩
  · intro e he
    have := h1.2 e he
    rw [h2] at this
    exact this
  · intro now order
    exact (requeueLoop_countsOk now order 0 _ h1).2
  · intro op hop
    cases op with
    | publish gen payload now => cases gen <;> rfl
    | claim start wait clock => simp [Op.isClaim] at hop
    | ack messageID =>
      cases hg : mapGet messageID (execAll ops (Sys.init name lease maxDelivery)).q.inFlight
        <;> simp only [exec, Ack, hg]
    | stats => rfl
    | tick now order => exact (requeueLoop_countsOk now order 0 _ h1).2

/-! ## One reclamation tick -/

theorem expired_mapDelete_of_ne (now : Int) (q q1 : InMemoryQueue) (id k : String)
    (h : q1.inFlight = mapDelete id q.inFlight) (hne : k ≠ id) :
    expired now q1 k = expired now q k := by
  simp only [expired, h, mapGet_mapDelete, hne, if_false]

theorem tickSpec_nil (now : Int) (order : List String) (cnt : Nat) (q : InMemoryQueue)
    (h : reclaimed now order cnt q = []) : tickSpec now order cnt q = q := by
  obtain ⟨name, pending, inFlight, deadLetter, maxD, lease⟩ := q
  simp [tickSpec, h]

theorem mem_reclaimed {now : Int} {order : List String} {cnt : Nat} {q : InMemoryQueue}
    {k : String} (h : k ∈ reclaimed now order cnt q) :
    k ∈ order ∧ expired now q k = true :=
  List.mem_filter.mp (List.mem_of_mem_take h)

theorem reclaimed_cons_expired (now : Int) (id0 : String) (rest : List String) (cnt : Nat)
    (q : InMemoryQueue) (he : expired now q id0 = true) (hc : ¬ cnt ≥ batchSize) :
    reclaimed now (id0 :: rest) cnt q = id0 :: reclaimed now rest (cnt + 1) q := by
  have hsub : batchSize - cnt = (batchSize - (cnt + 1)) + 1 := by omega
  simp only [reclaimed, List.filter_cons, he, if_true]
  rw [hsub, List.take_succ_cons]

theorem reclaimed_mapDelete (now : Int) (id0 : String) (rest : List String) (cnt : Nat)
    (q q1 : InMemoryQueue) (h : q1.inFlight = mapDelete id0 q.inFlight)
    (hnot : id0 ∉ rest) : reclaimed now rest cnt q1 = reclaimed now rest cnt q := by
  simp only [reclaimed]
  congr 1
  apply List.filter_congr
  intro k hk
  exact expired_mapDelete_of_ne now q q1 id0 k h (fun e => hnot (e ▸ hk))

theorem filterMap_mapGet_mapDelete (id0 : String) (F : MsgMap) (l : List String)
    (hnot : id0 ∉ l) :
    l.filterMap (fun k => mapGet k (mapDelete id0 F)) = l.filterMap (fun k => mapGet k F) := by
  apply List.filterMap_congr
  intro k hk
  have hne : ¬ k = id0 := fun e => hnot (e ▸ hk)
  simp only [mapGet_mapDelete, hne, if_false]

theorem filter_mapDelete (id0 : String) (F : MsgMap) (l : List String) :
    (mapDelete id0 F).filter (fun e => decide (e.1 ∉ l))
      = F.filter (fun e => decide (e.1 ∉ id0 :: l)) := by
  simp only [mapDelete, List.filter_filter]
  apply List.filter_congr
  intro e _
  by_cases h1 : e.1 = id0 <;> by_cases h2 : e.1 ∈ l <;> simp [h1, h2]

/-- The loop of the source computes what `tickSpec` describes, when the keys are visited
once each. -/
theorem requeueLoop_eq_tickSpec (now : Int) (order : List String) :
    ∀ (cnt : Nat) (q : InMemoryQueue), order.Nodup →
      requeueLoop now order cnt q = tickSpec now order cnt q := by
  induction order with
  | nil =>
    intro cnt q _
    rw [tickSpec_nil _ _ _ _ (by simp [reclaimed])]
    rfl
  | cons id0 rest ih =>
    intro cnt q hnd
    have hnd1 : rest.Nodup := (List.nodup_cons.mp hnd).2
    have hnot : id0 ∉ rest := (List.nodup_cons.mp hnd).1
    by_cases hc : cnt ≥ batchSize
    · simp only [requeueLoop, hc, if_true]
      rw [tickSpec_nil _ _ _ _ (by
        have : batchSize - cnt = 0 := by omega
        simp [reclaimed, this])]
    · simp only [requeueLoop, hc, if_false]
      have skip : expired now q id0 = false →
          tickSpec now (id0 :: rest) cnt q = tickSpec now rest cnt q := by
        intro hf
        simp only [tickSpec, reclaimed, List.filter_cons, hf, Bool.false_eq_true, if_false]
      cases hg : mapGet id0 q.inFlight with
      | none =>
        rw [skip (by simp [expired, hg])]
        exact ih cnt q hnd1
      | some msg =>
        dsimp only
        by_cases he : msg.VisibilityDeadline < now
        · have hexp : expired now q id0 = true := by simp [expired, hg, he]
          have hnr : id0 ∉ reclaimed now rest (cnt + 1) q := fun h => hnot (mem_reclaimed h).1
          simp only [he, if_true]
          by_cases hd : msg.DeliveryCount > q.maxDeliveryCount
          · simp only [hd, if_true]
            rw [ih (cnt + 1) _ hnd1]
            simp only [tickSpec, reclaimed_cons_expired now id0 rest cnt q hexp hc,
              reclaimed_mapDelete now id0 rest (cnt + 1) q
                { q with inFlight := mapDelete id0 q.inFlight,
                         deadLetter := q.deadLetter ++ [msg] } rfl hnot,
              filterMap_mapGet_mapDelete id0 q.inFlight _ hnr, filter_mapDelete,
              List.filterMap_cons, hg, List.filter_cons, hd, decide_True, not_true_eq_false,
              decide_False, if_true, List.append_assoc, List.singleton_append,
              Bool.false_eq_true, if_false]
          · simp only [hd, if_false]
            rw [ih (cnt + 1) _ hnd1]
            simp only [tickSpec, reclaimed_cons_expired now id0 rest cnt q hexp hc,
              reclaimed_mapDelete now id0 rest (cnt + 1) q
                { q with inFlight := mapDelete id0 q.inFlight,
                         pending := q.pending ++ [msg] } rfl hnot,
              filterMap_mapGet_mapDelete id0 q.inFlight _ hnr, filter_mapDelete,
              List.filterMap_cons, hg, List.filter_cons, hd, decide_True, not_false_eq_true,
              decide_False, if_true, List.append_assoc, List.singleton_append,
              Bool.false_eq_true, if_false]
        · simp only [he, if_false]
          rw [skip (by simp [expired, hg, he])]
          exact ih cnt q hnd1

theorem mapGet_of_mem {F : MsgMap} (hk : (mapKeys F).Nodup) {e : String × Message}
    (he : e ∈ F) : mapGet e.1 F = some e.2 := by
  induction F with
  | nil => simp at he
  | cons a rest ih =>
    obtain ⟨k1, v1⟩ := a
    simp only [mapKeys, List.map_cons, List.nodup_cons] at hk
    rcases List.mem_cons.mp he with h1 | h1
    · subst h1; simp [mapGet]
    · have hne : ¬ k1 = e.1 := fun h => hk.1 (h ▸ List.mem_map_of_mem Prod.fst h1)
      simp only [mapGet, hne, if_false]
      exact ih hk.2 h1

theorem mapGet_filter_keys (P : String → Bool) (k : String) (F : MsgMap) :
    mapGet k (F.filter (fun e => P e.1)) = if P k = true then mapGet k F else none := by
  induction F with
  | nil => simp [mapGet]
  | cons a rest ih =>
    obtain ⟨k1, v1⟩ := a
    by_cases hp : P k1 = true
    · by_cases hkk : k1 = k
      · subst hkk; simp [List.filter_cons, hp, mapGet]
      · simp only [List.filter_cons, hp, if_true, mapGet, hkk, if_false]; exact ih
    · by_cases hkk : k1 = k
      · subst hkk
        simp only [List.filter_cons, hp, if_false, Bool.false_eq_true, mapGet, if_true]
        rw [ih]; simp [hp]
      · simp only [List.filter_cons, hp, if_false, Bool.false_eq_true, mapGet, hkk]
        exact ih

theorem expired_count (now : Int) (q : InMemoryQueue) (hk : (mapKeys q.inFlight).Nodup) :
    ((mapKeys q.inFlight).filter (expired now q)).length
      = (q.inFlight.filter (fun e => decide (e.2.VisibilityDeadline < now))).length := by
  rw [mapKeys, List.filter_map, List.length_map]
  congr 1
  apply List.filter_congr
  intro e he
  simp only [Function.comp, expired, mapGet_of_mem hk he]

theorem reclaimed_nodup (now : Int) (order : List String) (cnt : Nat) (q : InMemoryQueue)
    (h : order.Nodup) : (reclaimed now order cnt q).Nodup :=
  ((h.sublist (List.filter_sublist _)).sublist (List.take_sublist _ _))

theorem filter_keys_length (F : MsgMap) (hk : (mapKeys F).Nodup) (gone : List String)
    (hg : gone.Nodup) (hsub : ∀ k ∈ gone, k ∈ mapKeys F) :
    (F.filter (fun e => decide (e.1 ∈ gone))).length = gone.length := by
  have h1 : (F.filter (fun e => decide (e.1 ∈ gone))).map Prod.fst
      = (mapKeys F).filter (fun k => decide (k ∈ gone)) := by
    rw [mapKeys, List.filter_map]; rfl
  have h2 : ((mapKeys F).filter (fun k => decide (k ∈ gone))).Perm gone := by
    rw [List.perm_ext_iff_of_nodup (hk.sublist (List.filter_sublist _)) hg]
    intro a
    simp only [List.mem_filter, decide_eq_true_eq]
    exact ⟨fun h => h.2, fun h => ⟨hsub a h, h⟩⟩
  rw [← List.length_map _ Prod.fst, h1]
  exact h2.length_eq

/-- C18: one tick at time `now`, on a map with distinct keys visited once each.  The keys
it removes from `inFlight` are the first `min 100 (number of expired entries)` expired keys
in visiting order; every one of them held a message with deadline strictly before `now`;
the removed messages go, in that order, to the tail of `pending` when
`DeliveryCount ≤ maxDeliveryCount` and to the tail of `deadLetter` otherwise; every other
entry of `inFlight`, in particular every entry not expired, and the old entries of
`pending` and `deadLetter` stay as they are. -/
theorem one_reclamation_tick (q : InMemoryQueue) (now : Int) (order : List String)
    (hk : (mapKeys q.inFlight).Nodup) (hord : order.Perm (mapKeys q.inFlight)) :
    requeueTick now order q = tickSpec now order 0 q ∧
    (reclaimed now order 0 q).Nodup ∧
    (reclaimed now order 0 q).length = min batchSize
      (q.inFlight.filter (fun e => decide (e.2.VisibilityDeadline < now))).length ∧
    (requeueTick now order q).inFlight.length + (reclaimed now order 0 q).length
      = q.inFlight.length ∧
    (∀ k ∈ reclaimed now order 0 q, ∃ m, mapGet k q.inFlight = some m ∧
      m.VisibilityDeadline < now ∧ mapGet k (requeueTick now order q).inFlight = none) ∧
    (∀ k, k ∉ reclaimed now order 0 q →
      mapGet k (requeueTick now order q).inFlight = mapGet k q.inFlight) ∧
    (∀ k m, mapGet k q.inFlight = some m → ¬ (m.VisibilityDeadline < now) →
      mapGet k (requeueTick now order q).inFlight = some m) ∧
    (requeueTick now order q).pending = q.pending ++
      ((reclaimed now order 0 q).filterMap (fun k => mapGet k q.inFlight)).filter
        (fun m => decide (m.DeliveryCount ≤ q.maxDeliveryCount)) ∧
    (requeueTick now order q).deadLetter = q.deadLetter ++
      ((reclaimed now order 0 q).filterMap (fun k => mapGet k q.inFlight)).filter
        (fun m => decide (m.DeliveryCount > q.maxDeliveryCount)) := by
  have hnd : order.Nodup := hord.nodup_iff.mpr hk
  have heq : requeueTick now order q = tickSpec now order 0 q :=
    requeueLoop_eq_tickSpec now order 0 q hnd
  have hgone := reclaimed_nodup now order 0 q hnd
  have hinf : (requeueTick now order q).inFlight
      = q.inFlight.filter (fun e => decide (e.1 ∉ reclaimed now order 0 q)) := by
    rw [heq]; rfl
  have hget : ∀ k, mapGet k (requeueTick now order q).inFlight
      = if k ∈ reclaimed now order 0 q then none else mapGet k q.inFlight := by
    intro k
    rw [hinf, mapGet_filter_keys (fun k => decide (k ∉ reclaimed now order 0 q))]
    by_cases h : k ∈ reclaimed now order 0 q <;> simp [h]
  have hexp : ∀ k ∈ reclaimed now order 0 q, ∃ m, mapGet k q.inFlight = some m ∧
      m.VisibilityDeadline < now := by
    intro k hkm
    have h1 := (mem_reclaimed hkm).2
    simp only [expired] at h1
    cases hg : mapGet k q.inFlight with
    | none => simp [hg] at h1
    | some m => exact ⟨m, rfl, by simpa [hg] using h1⟩
  refine ⟨heq, hgone, ?_, ?_, ?_, ?_, ?_, ?_, ?_⟩
  · simp only [reclaimed, List.length_take, Nat.sub_zero]
    rw [(hord.filter _).length_eq, expired_count now q hk]
  · have hsub : ∀ k ∈ reclaimed now order 0 q, k ∈ mapKeys q.inFlight :=
      fun k h => hord.subset (mem_reclaimed h).1
    have h1 := filter_keys_length q.inFlight hk _ hgone hsub
    have h2 := List.length_eq_length_filter_add
      (l := q.inFlight) (fun e => decide (e.1 ∈ reclaimed now order 0 q))
    rw [hinf, ← h1]
    simp only [decide_not] at h2 ⊢
    omega
  · intro k hkm
    obtain ⟨m, h1, h2⟩ := hexp k hkm
    exact ⟨m, h1, h2, by rw [hget]; simp [hkm]⟩
  · intro k hkm
    rw [hget]; simp [hkm]
  · intro k m hg hne
    rw [hget]
    by_cases hkm : k ∈ reclaimed now order 0 q
    · obtain ⟨m1, h1, h2⟩ := hexp k hkm
      rw [hg] at h1
      exact absurd ((Option.some.inj h1) ▸ h2) hne
    · simp [hkm, hg]
  · rw [heq]
    simp only [tickSpec, not_lt]
  · rw [heq]
    rfl

/-! ## Maps with string keys, the codec and `strings.Cut` -/

theorem kvGet_kvDelete {α : Type} (k id : String) (m : List (String × α)) :
    kvGet k (kvDelete id m) = if k = id then none else kvGet k m := by
  induction m with
  | nil => simp [kvDelete, kvGet]
  | cons e rest ih =>
    obtain ⟨k1, v⟩ := e
    simp only [kvDelete] at ih
    by_cases h1 : k1 = id
    · subst h1
      by_cases h2 : k = k1
      · subst h2; simpa [kvDelete, kvGet] using ih
      · have h3 : ¬ k1 = k := fun h => h2 h.symm
        simpa [kvDelete, kvGet, h2, h3] using ih
    · by_cases h2 : k1 = k
      · subst h2; simp [kvDelete, kvGet, h1]
      · simp only [kvDelete, List.filter_cons, ne_eq, h1, not_false_eq_true, decide_True,
          if_true, kvGet, h2, if_false]
        exact ih

theorem kvGet_append_single {α : Type} (k id : String) (v : α) (m : List (String × α)) :
    kvGet k (m ++ [(id, v)]) =
      match kvGet k m with
      | some w => some w
      | none => if id = k then some v else none := by
  induction m with
  | nil => simp [kvGet]
  | cons e rest ih =>
    obtain ⟨k1, w⟩ := e
    by_cases h : k1 = k
    · simp [kvGet, h]
    · simpa [kvGet, h] using ih

theorem kvGet_kvSet {α : Type} (k id : String) (v : α) (m : List (String × α)) :
    kvGet k (kvSet id v m) = if k = id then some v else kvGet k m := by
  rw [kvSet, kvGet_append_single, kvGet_kvDelete]
  by_cases h : k = id
  · subst h; simp
  · have h1 : ¬ id = k := fun e => h e.symm
    simp only [h, if_false, h1]
    cases kvGet k m <;> rfl

theorem encSextet_mem (n : Nat) : encSextet n ∈ urlAlphabet := by
  unfold encSextet
  by_cases h : n < urlAlphabet.length
  · rw [List.getD_eq_getElem _ _ h]
    exact List.getElem_mem _
  · rw [List.getD_eq_default _ _ (by omega)]
    decide

theorem encodeBytes_mem : ∀ (bs : List UInt8) (c : Char), c ∈ encodeBytes bs →
    c ∈ urlAlphabet
  | b0 :: b1 :: b2 :: rest, c, h => by
    simp only [encodeBytes, List.mem_cons] at h
    rcases h with h | h | h | h | h
    · rw [h]; exact encSextet_mem _
    · rw [h]; exact encSextet_mem _
    · rw [h]; exact encSextet_mem _
    · rw [h]; exact encSextet_mem _
    · exact encodeBytes_mem rest c h
  | [b0, b1], c, h => by
    simp only [encodeBytes, List.mem_cons, List.mem_singleton] at h
    rcases h with h | h | h | h
    · rw [h]; exact encSextet_mem _
    · rw [h]; exact encSextet_mem _
    · rw [h]; exact encSextet_mem _
    · exact absurd h (List.not_mem_nil _)
  | [b0], c, h => by
    simp only [encodeBytes, List.mem_cons, List.mem_singleton] at h
    rcases h with h | h | h
    · rw [h]; exact encSextet_mem _
    · rw [h]; exact encSextet_mem _
    · exact absurd h (List.not_mem_nil _)
  | [], c, h => by simp [encodeBytes] at h

theorem decSextet_encSextet (n : Nat) (h : n < 64) : decSextet (encSextet n) = some n := by
  interval_cases n <;> rfl

theorem UInt8_ofNat_eq (b : UInt8) (n : Nat) (h : n = b.toNat) : UInt8.ofNat n = b := by
  subst h
  cases b with
  | mk v =>
    apply UInt8.ext
    simp [UInt8.ofNat, UInt8.toNat, Fin.ofNat]

theorem UInt8_toNat_lt (b : UInt8) : b.toNat < 256 := b.val.isLt

theorem decodeChars_encodeBytes : ∀ bs : List UInt8, decodeChars (encodeBytes bs) = some bs
  | b0 :: b1 :: b2 :: rest => by
    have h0 := UInt8_toNat_lt b0
    have h1 := UInt8_toNat_lt b1
    have h2 := UInt8_toNat_lt b2
    simp only [encodeBytes, decodeChars]
    rw [decSextet_encSextet _ (by omega), decSextet_encSextet _ (by omega),
      decSextet_encSextet _ (by omega), decSextet_encSextet _ (by omega),
      decodeChars_encodeBytes rest]
    simp only
    rw [UInt8_ofNat_eq b0 _ (by omega), UInt8_ofNat_eq b1 _ (by omega),
      UInt8_ofNat_eq b2 _ (by omega)]
  | [b0, b1] => by
    have h0 := UInt8_toNat_lt b0
    have h1 := UInt8_toNat_lt b1
    simp only [encodeBytes, decodeChars]
    rw [decSextet_encSextet _ (by omega), decSextet_encSextet _ (by omega),
      decSextet_encSextet _ (by omega)]
    simp only
    rw [UInt8_ofNat_eq b0 _ (by omega), UInt8_ofNat_eq b1 _ (by omega)]
  | [b0] => by
    have h0 := UInt8_toNat_lt b0
    simp only [encodeBytes, decodeChars]
    rw [decSextet_encSextet _ (by omega), decSextet_encSextet _ (by omega)]
    simp only
    rw [UInt8_ofNat_eq b0 _ (by omega)]
  | [] => rfl

theorem rawURLEncoding_lawful : rawURLEncoding.Lawful := by
  constructor
  · intro b
    have hfil : (encodeBytes b).filter (fun c => !isLineBreak c) = encodeBytes b := by
      apply List.filter_eq_self.mpr
      intro c hc
      have hm := encodeBytes_mem b c hc
      revert c
      have hall : ∀ c ∈ urlAlphabet, (!isLineBreak c) = true := by decide
      intro c _ hm
      exact hall c hm
    simp only [rawURLEncoding, String.toList, hfil]
    exact decodeChars_encodeBytes b
  · intro b hdot
    have hm := encodeBytes_mem b '.' hdot
    revert hm
    decide

theorem span_no_dot (l : List Char) (rest : List Char) (h : '.' ∉ l) :
    (l ++ '.' :: rest).span (fun c => c != '.') = (l, '.' :: rest) := by
  induction l with
  | nil => simp [List.span_eq_take_drop, List.takeWhile, List.dropWhile]
  | cons c l ih =>
    have hc : (c != '.') = true := by
      simp only [bne_iff_ne, ne_eq]
      intro e; exact h (e ▸ List.mem_cons_self _ _)
    have hl : '.' ∉ l := fun e => h (List.mem_cons_of_mem _ e)
    have ih1 := ih hl
    rw [List.span_eq_take_drop] at ih1 ⊢
    simp only [List.cons_append, List.takeWhile_cons, hc, if_true, List.dropWhile_cons]
    simp only [Prod.mk.injEq] at ih1 ⊢
    exact ⟨by rw [ih1.1], ih1.2⟩

theorem cutDot_join (a b : String) (h : '.' ∉ a.toList) :
    cutDot (a ++ "." ++ b) = some (a, b) := by
  have hl : (a ++ "." ++ b).toList = a.toList ++ '.' :: b.toList := by
    simp [String.toList, String.data_append]
  simp only [cutDot, hl, span_no_dot _ _ h]
  rfl

/-! ## Token round trip -/

theorem CreateKey_ok (c : Codec) (sum256 : List UInt8 → List UInt8)
    (secret keyIDBytes : List UInt8) (tenantID : String) (a : AuthManager) :
    a.CreateKey c sum256 (.ok secret) (.ok keyIDBytes) tenantID =
      (.ok (c.EncodeToString keyIDBytes ++ "." ++ c.EncodeToString secret),
        { Keys := kvSet (c.EncodeToString keyIDBytes)
            { KeyID := c.EncodeToString keyIDBytes, TenantID := tenantID,
              Hash := c.EncodeToString (sum256 secret) } a.Keys }) := rfl

theorem ValidateKey_of_record (c : Codec) (hc : c.Lawful) (sum256 : List UInt8 → List UInt8)
    (secret keyIDBytes : List UInt8) (record : keyRecord) (a : AuthManager)
    (hg : kvGet (c.EncodeToString keyIDBytes) a.Keys = some record)
    (hh : record.Hash = c.EncodeToString (sum256 secret)) :
    a.ValidateKey c sum256 (c.EncodeToString keyIDBytes ++ "." ++ c.EncodeToString secret)
      = (c.EncodeToString keyIDBytes, record.TenantID, true) := by
  simp only [AuthManager.ValidateKey, cutDot_join _ _ (hc.no_dot keyIDBytes),
    hc.decode_encode, hg, hh, if_true]

theorem ValidateKey_unknown (c : Codec) (sum256 : List UInt8 → List UInt8) (token : String)
    (kid secretStr : String) (a : AuthManager) (hcut : cutDot token = some (kid, secretStr))
    (hg : kvGet kid a.Keys = none) : a.ValidateKey c sum256 token = ("", "", false) := by
  simp only [AuthManager.ValidateKey, hcut, hg]
  cases c.DecodeString secretStr <;> rfl

/-- C12: for every tenant id and every outcome of the two random reads, `CreateKey`
returns the token `keyID.secret`, whose part before the first `.` is the key id;
`ValidateKey` of that token returns the key id, the tenant and `true`; `RevokeKey` of the
key id then succeeds and `ValidateKey` of the same token returns `false`, as it does for
every token after the successful revocation of its key id. -/
theorem token_round_trip (c : Codec) (hc : c.Lawful) (sum256 : List UInt8 → List UInt8)
    (a : AuthManager) (tenantID : String) (secret keyIDBytes : List UInt8) :
    ∃ token keyID secretStr,
      (a.CreateKey c sum256 (.ok secret) (.ok keyIDBytes) tenantID).1 = .ok token ∧
      cutDot token = some (keyID, secretStr) ∧
      (a.CreateKey c sum256 (.ok secret) (.ok keyIDBytes) tenantID).2.ValidateKey c sum256
        token = (keyID, tenantID, true) ∧
      ((a.CreateKey c sum256 (.ok secret) (.ok keyIDBytes) tenantID).2.RevokeKey keyID).1
        = .ok () ∧
      AuthManager.ValidateKey c sum256 token
        ((a.CreateKey c sum256 (.ok secret) (.ok keyIDBytes) tenantID).2.RevokeKey keyID).2
        = ("", "", false) ∧
      (∀ (a2 : AuthManager), (a2.RevokeKey keyID).1 = .ok () →
        (a2.RevokeKey keyID).2.ValidateKey c sum256 token = ("", "", false)) := by
  have hcut := cutDot_join (c.EncodeToString keyIDBytes) (c.EncodeToString secret)
    (hc.no_dot keyIDBytes)
  have hrev : ∀ a2 : AuthManager, kvGet (c.EncodeToString keyIDBytes)
      (a2.RevokeKey (c.EncodeToString keyIDBytes)).2.Keys = none := by
    intro a2
    simp only [AuthManager.RevokeKey]
    cases hg : kvGet (c.EncodeToString keyIDBytes) a2.Keys with
    | none => exact hg
    | some r => simp [kvGet_kvDelete]
  refine ⟨_, c.EncodeToString keyIDBytes, c.EncodeToString secret, rfl, hcut, ?_, ?_, ?_, ?_⟩
  · rw [CreateKey_ok]
    have hg : kvGet (c.EncodeToString keyIDBytes)
        (kvSet (c.EncodeToString keyIDBytes)
          ({ KeyID := c.EncodeToString keyIDBytes, TenantID := tenantID,
             Hash := c.EncodeToString (sum256 secret) } : keyRecord) a.Keys)
        = some { KeyID := c.EncodeToString keyIDBytes, TenantID := tenantID,
                 Hash := c.EncodeToString (sum256 secret) } := by
      rw [kvGet_kvSet]; simp
    exact ValidateKey_of_record c hc sum256 secret keyIDBytes _ _ hg rfl
  · rw [CreateKey_ok]
    simp [AuthManager.RevokeKey, kvGet_kvSet]
  · exact ValidateKey_unknown c sum256 _ _ _ _ hcut (hrev _)
  · intro a2 _
    exact ValidateKey_unknown c sum256 _ _ _ _ hcut (hrev a2)

theorem token_round_trip_witness :
    ∃ token keyID secretStr,
      (NewAuthManager.CreateKey rawURLEncoding sampleSum256
        (.ok [0, 1, 2, 3, 4, 5, 6, 7, 8, 9, 10, 11, 12, 13, 14, 15])
        (.ok [1, 2, 3, 4, 5, 6, 7, 8]) "a").1 = .ok token ∧
      cutDot token = some (keyID, secretStr) ∧
      (NewAuthManager.CreateKey rawURLEncoding sampleSum256
        (.ok [0, 1, 2, 3, 4, 5, 6, 7, 8, 9, 10, 11, 12, 13, 14, 15])
        (.ok [1, 2, 3, 4, 5, 6, 7, 8]) "a").2.ValidateKey rawURLEncoding sampleSum256
        token = (keyID, "a", true) ∧
      ((NewAuthManager.CreateKey rawURLEncoding sampleSum256
        (.ok [0, 1, 2, 3, 4, 5, 6, 7, 8, 9, 10, 11, 12, 13, 14, 15])
        (.ok [1, 2, 3, 4, 5, 6, 7, 8]) "a").2.RevokeKey keyID).1 = .ok () ∧
      AuthManager.ValidateKey rawURLEncoding sampleSum256 token
        ((NewAuthManager.CreateKey rawURLEncoding sampleSum256
          (.ok [0, 1, 2, 3, 4, 5, 6, 7, 8, 9, 10, 11, 12, 13, 14, 15])
          (.ok [1, 2, 3, 4, 5, 6, 7, 8]) "a").2.RevokeKey keyID).2
        = ("", "", false) ∧
      (∀ (a2 : AuthManager), (a2.RevokeKey keyID).1 = .ok () →
        (a2.RevokeKey keyID).2.ValidateKey rawURLEncoding sampleSum256 token
          = ("", "", false)) :=
  token_round_trip rawURLEncoding rawURLEncoding_lawful sampleSum256 NewAuthManager "a"
    [0, 1, 2, 3, 4, 5, 6, 7, 8, 9, 10, 11, 12, 13, 14, 15] [1, 2, 3, 4, 5, 6, 7, 8]

theorem sampleBroker_tokens :
    sampleBroker.Auth.ValidateKey rawURLEncoding sampleSum256
      "AQIDBAUGBwg.AAECAwQFBgcICQoLDA0ODw" = ("AQIDBAUGBwg", "a", true) ∧
    sampleBroker.Auth.ValidateKey rawURLEncoding sampleSum256
      "CQoLDA0ODxA.EBESExQVFhcYGRobHB0eHw" = ("CQoLDA0ODxA", "a:b", true) := by
  constructor <;> rfl

/-! ## The registry -/

theorem getQueue_fst (name : String) (b : Broker) :
    (b.getQueue name).1 =
      match kvGet name b.queues with
      | some q => q
      | none => NewInMemoryQueue name b.leaseDuration b.maxDelivery := by
  simp only [Broker.getQueue]
  cases kvGet name b.queues <;> rfl

theorem getQueue_registered (name : String) (b : Broker) :
    kvGet name (b.getQueue name).2.queues = some (b.getQueue name).1 := by
  simp only [Broker.getQueue]
  cases hg : kvGet name b.queues with
  | none => simp [kvGet_kvSet]
  | some q => exact hg

theorem getQueue_other (name k : String) (b : Broker) (hk : k ≠ name) :
    kvGet k (b.getQueue name).2.queues = kvGet k b.queues := by
  simp only [Broker.getQueue]
  cases hg : kvGet name b.queues with
  | none => simp [kvGet_kvSet, hk]
  | some q => rfl

theorem getQueue_settings (name : String) (b : Broker) :
    (b.getQueue name).2.leaseDuration = b.leaseDuration ∧
    (b.getQueue name).2.maxDelivery = b.maxDelivery := by
  simp only [Broker.getQueue]
  cases kvGet name b.queues <;> exact ⟨rfl, rfl⟩

theorem store_other (name k : String) (q : InMemoryQueue) (b : Broker) (hk : k ≠ name) :
    kvGet k (b.store name q).queues = kvGet k b.queues := by
  simp [Broker.store, kvGet_kvSet, hk]

theorem store_isSome (name k : String) (q : InMemoryQueue) (b : Broker)
    (h : (kvGet k b.queues).isSome = true) :
    (kvGet k (b.store name q).queues).isSome = true := by
  simp only [Broker.store, kvGet_kvSet]
  by_cases hk : k = name
  · simp [hk]
  · simpa [hk] using h

theorem getQueue_isSome (name k : String) (b : Broker)
    (h : (kvGet k b.queues).isSome = true) :
    (kvGet k (b.getQueue name).2.queues).isSome = true := by
  by_cases hk : k = name
  · subst hk; rw [getQueue_registered]; rfl
  · rw [getQueue_other name k b hk]; exact h

/-- C16: `getQueue name` returns the queue registered under `name` and leaves the registry
as it is, or, when there is none, registers a new queue (empty `pending`, `inFlight` and
`deadLetter`, the broker's lease and maximum) and leaves every other entry as it is; a
second resolve of the same name returns the same queue and changes nothing; no broker
operation removes an entry. -/
theorem registry_resolve (b : Broker) (name : String) :
    (∀ q, kvGet name b.queues = some q → b.getQueue name = (q, b)) ∧
    (kvGet name b.queues = none →
      (b.getQueue name).1 =
        { name := name, pending := [], inFlight := [], deadLetter := [],
          maxDeliveryCount := b.maxDelivery, leaseDuration := b.leaseDuration } ∧
      kvGet name (b.getQueue name).2.queues = some (b.getQueue name).1 ∧
      (∀ k, k ≠ name → kvGet k (b.getQueue name).2.queues = kvGet k b.queues) ∧
      (b.getQueue name).2.leaseDuration = b.leaseDuration ∧
      (b.getQueue name).2.maxDelivery = b.maxDelivery) ∧
    (b.getQueue name).2.getQueue name = ((b.getQueue name).1, (b.getQueue name).2) ∧
    (∀ k, (kvGet k b.queues).isSome = true → ∀ n : String,
      (kvGet k (b.getQueue n).2.queues).isSome = true ∧
      (∀ gen payload now, (kvGet k (b.Publish n gen payload now).2.queues).isSome = true) ∧
      (∀ start wait clock, (kvGet k (b.Claim n start wait clock).2.queues).isSome = true) ∧
      (∀ messageID, (kvGet k (b.Ack n messageID).2.queues).isSome = true) ∧
      (kvGet k (b.Stats n).2.queues).isSome = true) := by
  refine ⟨?_, ?_, ?_, ?_⟩
  · intro q hq
    simp only [Broker.getQueue, hq]
  · intro hn
    refine ⟨?_, getQueue_registered name b, fun k hk => getQueue_other name k b hk,
      getQueue_settings name b⟩
    rw [getQueue_fst, hn]
    rfl
  · have h1 := getQueue_registered name b
    generalize b.getQueue name = r at h1
    simp only [Broker.getQueue, h1]
  · intro k hk n
    have h1 := getQueue_isSome n k b hk
    exact ⟨h1, fun _ _ _ => store_isSome n k _ _ h1, fun _ _ _ => store_isSome n k _ _ h1,
      fun _ => store_isSome n k _ _ h1, store_isSome n k _ _ h1⟩

theorem registry_resolve_witness :
    (NewBroker 30 3).getQueue "a:orders" =
      (NewInMemoryQueue "a:orders" 30 3,
        { queues := [("a:orders", NewInMemoryQueue "a:orders" 30 3)], maxDelivery := 3,
          leaseDuration := 30 }) ∧
    ((NewBroker 30 3).getQueue "a:orders").2.getQueue "a:orders" =
      (((NewBroker 30 3).getQueue "a:orders").1, ((NewBroker 30 3).getQueue "a:orders").2) :=
  ⟨rfl, (registry_resolve (NewBroker 30 3) "a:orders").2.2.1⟩

/-! ## The authenticated broker -/

theorem ValidateAndGetQueueName_ok (c : Codec) (sum256 : List UInt8 → List UInt8)
    (apiKey queueName kid tenantID : String) (ab : AuthenticatedBroker)
    (h : ab.Auth.ValidateKey c sum256 apiKey = (kid, tenantID, true)) :
    ab.ValidateAndGetQueueName c sum256 apiKey queueName
      = .ok (tenantID ++ ":" ++ queueName) := by
  simp [AuthenticatedBroker.ValidateAndGetQueueName, h]

theorem ValidateAndGetQueueName_error (c : Codec) (sum256 : List UInt8 → List UInt8)
    (apiKey queueName : String) (ab : AuthenticatedBroker)
    (h : (ab.Auth.ValidateKey c sum256 apiKey).2.2 = false) :
    ab.ValidateAndGetQueueName c sum256 apiKey queueName = .error ErrUnauthorized := by
  simp [AuthenticatedBroker.ValidateAndGetQueueName, h]

theorem fullName_ne (t1 t2 queueName : String) (h : t1 ≠ t2) :
    t1 ++ ":" ++ queueName ≠ t2 ++ ":" ++ queueName := by
  intro e
  apply h
  have h1 := congrArg String.data e
  simp only [String.data_append, List.append_assoc, List.append_left_inj] at h1
  exact String.ext h1

theorem Broker_Claim_fst (name : String) (start wait : Int) (clock : Nat → Int)
    (b1 b2 : Broker) (hq : kvGet name b1.queues = kvGet name b2.queues)
    (hl : b1.leaseDuration = b2.leaseDuration) (hm : b1.maxDelivery = b2.maxDelivery) :
    (b1.Claim name start wait clock).1 = (b2.Claim name start wait clock).1 := by
  simp only [Broker.Claim, getQueue_fst, hq, hl, hm]

theorem Broker_Publish_other (name k : String) (gen : Except String String)
    (payload : List UInt8) (now : Int) (b : Broker) (hk : k ≠ name) :
    kvGet k (b.Publish name gen payload now).2.queues = kvGet k b.queues := by
  simp only [Broker.Publish]
  rw [store_other name k _ _ hk, getQueue_other name k b hk]

theorem Broker_Publish_settings (name : String) (gen : Except String String)
    (payload : List UInt8) (now : Int) (b : Broker) :
    (b.Publish name gen payload now).2.leaseDuration = b.leaseDuration ∧
    (b.Publish name gen payload now).2.maxDelivery = b.maxDelivery := by
  simp only [Broker.Publish, Broker.store]
  exact getQueue_settings name b

/-- C13: two valid tokens of different tenants and one queue name: the fully-qualified
names differ, the registry keeps them as two entries (resolving both registers both, and
rewriting one leaves the other), a `Publish` with the first token leaves the second
tenant's queue (its `pending`, `inFlight` and `deadLetter`) as it was, and the second
tenant's `Claim` returns what it would have returned without that `Publish`. -/
theorem tenant_isolation (c : Codec) (sum256 : List UInt8 → List UInt8)
    (ab : AuthenticatedBroker) (tok1 tok2 queueName k1 k2 t1 t2 : String)
    (h1 : ab.Auth.ValidateKey c sum256 tok1 = (k1, t1, true))
    (h2 : ab.Auth.ValidateKey c sum256 tok2 = (k2, t2, true)) (hne : t1 ≠ t2) :
    ab.ValidateAndGetQueueName c sum256 tok1 queueName = .ok (t1 ++ ":" ++ queueName) ∧
    ab.ValidateAndGetQueueName c sum256 tok2 queueName = .ok (t2 ++ ":" ++ queueName) ∧
    t1 ++ ":" ++ queueName ≠ t2 ++ ":" ++ queueName ∧
    kvGet (t1 ++ ":" ++ queueName)
        ((ab.broker.getQueue (t1 ++ ":" ++ queueName)).2.getQueue
          (t2 ++ ":" ++ queueName)).2.queues
      = some (ab.broker.getQueue (t1 ++ ":" ++ queueName)).1 ∧
    kvGet (t2 ++ ":" ++ queueName)
        ((ab.broker.getQueue (t1 ++ ":" ++ queueName)).2.getQueue
          (t2 ++ ":" ++ queueName)).2.queues
      = some (ab.broker.getQueue (t2 ++ ":" ++ queueName)).1 ∧
    (∀ q1 : InMemoryQueue,
      kvGet (t2 ++ ":" ++ queueName) (ab.broker.store (t1 ++ ":" ++ queueName) q1).queues
        = kvGet (t2 ++ ":" ++ queueName) ab.broker.queues) ∧
    (∀ (gen : Except String String) (payload : List UInt8) (now : Int),
      kvGet (t2 ++ ":" ++ queueName)
          (ab.Publish c sum256 tok1 queueName gen payload now).2.broker.queues
        = kvGet (t2 ++ ":" ++ queueName) ab.broker.queues ∧
      ((ab.Publish c sum256 tok1 queueName gen payload now).2.broker.getQueue
          (t2 ++ ":" ++ queueName)).1
        = (ab.broker.getQueue (t2 ++ ":" ++ queueName)).1 ∧
      (∀ (waitSeconds start : Int) (clock : Nat → Int),
        ((ab.Publish c sum256 tok1 queueName gen payload now).2.Claim c sum256 tok2
            queueName waitSeconds start clock).1
          = (ab.Claim c sum256 tok2 queueName waitSeconds start clock).1)) := by
  have hv1 := ValidateAndGetQueueName_ok c sum256 tok1 queueName k1 t1 ab h1
  have hv2 := ValidateAndGetQueueName_ok c sum256 tok2 queueName k2 t2 ab h2
  have hn := fullName_ne t1 t2 queueName hne
  refine ⟨hv1, hv2, hn, ?_, ?_, ?_, ?_⟩
  · rw [getQueue_other _ _ _ hn]
    exact getQueue_registered _ _
  · rw [getQueue_registered]
    congr 1
    have hs := getQueue_settings (t1 ++ ":" ++ queueName) ab.broker
    rw [getQueue_fst, getQueue_fst, getQueue_other _ _ _ hn.symm, hs.1, hs.2]
  · intro q1
    exact store_other _ _ _ _ hn.symm
  · intro gen payload now
    have hp : (ab.Publish c sum256 tok1 queueName gen payload now).2 =
        { ab with broker := (ab.broker.Publish (t1 ++ ":" ++ queueName) gen payload now).2 } := by
      simp only [AuthenticatedBroker.Publish, hv1]
    have hq := Broker_Publish_other (t1 ++ ":" ++ queueName) (t2 ++ ":" ++ queueName)
      gen payload now ab.broker hn.symm
    have hs := Broker_Publish_settings (t1 ++ ":" ++ queueName) gen payload now ab.broker
    refine ⟨by rw [hp]; exact hq, ?_, ?_⟩
    · rw [hp, getQueue_fst, getQueue_fst]
      simp only [hq, hs.1, hs.2]
    · intro waitSeconds start clock
      have hv2' : ({ ab with broker := (ab.broker.Publish (t1 ++ ":" ++ queueName) gen
          payload now).2 } : AuthenticatedBroker).ValidateAndGetQueueName c sum256 tok2
            queueName = .ok (t2 ++ ":" ++ queueName) :=
        ValidateAndGetQueueName_ok c sum256 tok2 queueName k2 t2 _ h2
      rw [hp]
      simp only [AuthenticatedBroker.Claim, hv2', hv2]
      exact Broker_Claim_fst _ _ _ _ _ _ hq hs.1 hs.2

theorem tenant_isolation_witness :
    sampleBroker.ValidateAndGetQueueName rawURLEncoding sampleSum256
      "AQIDBAUGBwg.AAECAwQFBgcICQoLDA0ODw" "orders" = .ok ("a" ++ ":" ++ "orders") ∧
    sampleBroker.ValidateAndGetQueueName rawURLEncoding sampleSum256
      "CQoLDA0ODxA.EBESExQVFhcYGRobHB0eHw" "orders" = .ok ("a:b" ++ ":" ++ "orders") ∧
    "a" ++ ":" ++ "orders" ≠ "a:b" ++ ":" ++ "orders" :=
  ⟨(tenant_isolation rawURLEncoding sampleSum256 sampleBroker
      "AQIDBAUGBwg.AAECAwQFBgcICQoLDA0ODw" "CQoLDA0ODxA.EBESExQVFhcYGRobHB0eHw" "orders"
      "AQIDBAUGBwg" "CQoLDA0ODxA" "a" "a:b" sampleBroker_tokens.1 sampleBroker_tokens.2
      (by decide)).1,
   (tenant_isolation rawURLEncoding sampleSum256 sampleBroker
      "AQIDBAUGBwg.AAECAwQFBgcICQoLDA0ODw" "CQoLDA0ODxA.EBESExQVFhcYGRobHB0eHw" "orders"
      "AQIDBAUGBwg" "CQoLDA0ODxA" "a" "a:b" sampleBroker_tokens.1 sampleBroker_tokens.2
      (by decide)).2.1,
   (tenant_isolation rawURLEncoding sampleSum256 sampleBroker
      "AQIDBAUGBwg.AAECAwQFBgcICQoLDA0ODw" "CQoLDA0ODxA.EBESExQVFhcYGRobHB0eHw" "orders"
      "AQIDBAUGBwg" "CQoLDA0ODxA" "a" "a:b" sampleBroker_tokens.1 sampleBroker_tokens.2
      (by decide)).2.2.1⟩

/-- C14 fails on the code: the tenants `"a"` and `"a:b"` are different, yet the queue
`"b:c"` of the first and the queue `"c"` of the second get the same fully-qualified name
`"a:b:c"`, and the second tenant claims the message the first one published. -/
theorem namespace_collision :
    "a" ≠ "a:b" ∧
    sampleBroker.Auth.ValidateKey rawURLEncoding sampleSum256
      "AQIDBAUGBwg.AAECAwQFBgcICQoLDA0ODw" = ("AQIDBAUGBwg", "a", true) ∧
    sampleBroker.Auth.ValidateKey rawURLEncoding sampleSum256
      "CQoLDA0ODxA.EBESExQVFhcYGRobHB0eHw" = ("CQoLDA0ODxA", "a:b", true) ∧
    sampleBroker.ValidateAndGetQueueName rawURLEncoding sampleSum256
      "AQIDBAUGBwg.AAECAwQFBgcICQoLDA0ODw" "b:c" = .ok "a:b:c" ∧
    sampleBroker.ValidateAndGetQueueName rawURLEncoding sampleSum256
      "CQoLDA0ODxA.EBESExQVFhcYGRobHB0eHw" "c" = .ok "a:b:c" ∧
    ((sampleBroker.Publish rawURLEncoding sampleSum256
        "AQIDBAUGBwg.AAECAwQFBgcICQoLDA0ODw" "b:c" (.ok "m1") [7] 0).2.Claim
        rawURLEncoding sampleSum256 "CQoLDA0ODxA.EBESExQVFhcYGRobHB0eHw" "c" 5 1
        (fun _ => 1)).1 = .returned (.ok ⟨"m1", [7], 0, 1, 31⟩) ∧
    (∀ (c : Codec) (sum256 : List UInt8 → List UInt8) (ab : AuthenticatedBroker)
      (tokA tokB kA kB : String),
      ab.Auth.ValidateKey c sum256 tokA = (kA, "a", true) →
      ab.Auth.ValidateKey c sum256 tokB = (kB, "a:b", true) →
      ab.ValidateAndGetQueueName c sum256 tokA "b:c"
        = ab.ValidateAndGetQueueName c sum256 tokB "c") := by
  refine ⟨by decide, rfl, rfl, rfl, rfl, rfl, ?_⟩
  intro c sum256 ab tokA tokB kA kB hA hB
  rw [ValidateAndGetQueueName_ok c sum256 tokA "b:c" kA "a" ab hA,
    ValidateAndGetQueueName_ok c sum256 tokB "c" kB "a:b" ab hB]
  rfl

/-- C15: when `ValidateKey` rejects the token, `Publish`, `Claim`, `Ack` and `Stats` of
the authenticated broker return `ErrUnauthorized` and leave the registry, every queue and
the key store as they are; a token without `.`, with an unknown key id or with a secret
whose hash differs from the stored one is rejected. -/
theorem unauthorized_no_effect (c : Codec) (sum256 : List UInt8 → List UInt8)
    (ab : AuthenticatedBroker) (apiKey queueName : String) :
    ((ab.Auth.ValidateKey c sum256 apiKey).2.2 = false →
      (∀ gen payload now, ab.Publish c sum256 apiKey queueName gen payload now
        = (.error ErrUnauthorized, ab)) ∧
      (∀ waitSeconds start clock, ab.Claim c sum256 apiKey queueName waitSeconds start clock
        = (.returned (.error ErrUnauthorized), ab)) ∧
      (∀ messageID, ab.Ack c sum256 apiKey queueName messageID
        = (.error ErrUnauthorized, ab)) ∧
      ab.Stats c sum256 apiKey queueName = (.error ErrUnauthorized, ab)) ∧
    (cutDot apiKey = none → (ab.Auth.ValidateKey c sum256 apiKey).2.2 = false) ∧
    (∀ kid secretStr, cutDot apiKey = some (kid, secretStr) →
      kvGet kid ab.Auth.Keys = none → (ab.Auth.ValidateKey c sum256 apiKey).2.2 = false) ∧
    (∀ kid secretStr secret record expected, cutDot apiKey = some (kid, secretStr) →
      c.DecodeString secretStr = some secret → kvGet kid ab.Auth.Keys = some record →
      c.DecodeString record.Hash = some expected → sum256 secret ≠ expected →
      (ab.Auth.ValidateKey c sum256 apiKey).2.2 = false) := by
  refine ⟨?_, ?_, ?_, ?_⟩
  · intro h
    have hv := ValidateAndGetQueueName_error c sum256 apiKey queueName ab h
    refine ⟨?_, ?_, ?_, ?_⟩
    · intro gen payload now
      simp only [AuthenticatedBroker.Publish, hv]
    · intro waitSeconds start clock
      simp only [AuthenticatedBroker.Claim, hv]
    · intro messageID
      simp only [AuthenticatedBroker.Ack, hv]
    · simp only [AuthenticatedBroker.Stats, hv]
  · intro hcut
    simp only [AuthManager.ValidateKey, hcut]
  · intro kid secretStr hcut hg
    rw [ValidateKey_unknown c sum256 apiKey kid secretStr ab.Auth hcut hg]
  · intro kid secretStr secret record expected hcut hd hg hde hne
    simp only [AuthManager.ValidateKey, hcut, hd, hg, hde, hne, if_false]

theorem unauthorized_no_effect_witness :
    sampleBroker.Publish rawURLEncoding sampleSum256 "AQIDBAUGBwg.AAAA" "orders"
        (.ok "m1") [7] 0 = (.error ErrUnauthorized, sampleBroker) ∧
    sampleBroker.Stats rawURLEncoding sampleSum256 "AQIDBAUGBwg.AAAA" "orders"
      = (.error ErrUnauthorized, sampleBroker) :=
  ⟨((unauthorized_no_effect rawURLEncoding sampleSum256 sampleBroker "AQIDBAUGBwg.AAAA"
      "orders").1 rfl).1 (.ok "m1") [7] 0,
   ((unauthorized_no_effect rawURLEncoding sampleSum256 sampleBroker "AQIDBAUGBwg.AAAA"
      "orders").1 rfl).2.2.2⟩

theorem one_reclamation_tick_witness :
    requeueTick 31 ["c", "b", "a"]
      { name := "q", pending := [⟨"p", [], 0, 0, 0⟩],
        inFlight := [("a", ⟨"a", [1], 0, 1, 30⟩), ("b", ⟨"b", [2], 0, 5, 10⟩),
          ("c", ⟨"c", [3], 0, 1, 100⟩)],
        deadLetter := [], maxDeliveryCount := 3, leaseDuration := 30 } =
      { name := "q", pending := [⟨"p", [], 0, 0, 0⟩, ⟨"a", [1], 0, 1, 30⟩],
        inFlight := [("c", ⟨"c", [3], 0, 1, 100⟩)],
        deadLetter := [⟨"b", [2], 0, 5, 10⟩], maxDeliveryCount := 3, leaseDuration := 30 } :=
  (one_reclamation_tick
    { name := "q", pending := [⟨"p", [], 0, 0, 0⟩],
      inFlight := [("a", ⟨"a", [1], 0, 1, 30⟩), ("b", ⟨"b", [2], 0, 5, 10⟩),
        ("c", ⟨"c", [3], 0, 1, 100⟩)],
      deadLetter := [], maxDeliveryCount := 3, leaseDuration := 30 }
    31 ["c", "b", "a"] (by decide) (by decide)).1.trans rfl

/-! ## Runs with the 64-bit increment -/

theorem exec64_eq_exec (op : Op) (s : Sys) (h : CountsOk s.q)
    (hmax : s.q.maxDeliveryCount < maxInt64) : exec64 op s = exec op s := by
  cases op with
  | claim start wait clock =>
    have hrange : ∀ m ∈ s.q.pending,
        minInt64 ≤ m.DeliveryCount ∧ m.DeliveryCount < maxInt64 := by
      intro m hm
      have h1 := h.1 m hm
      simp only [minInt64, maxInt64] at hmax ⊢
      omega
    have heq : Claim64 start wait clock s.q = Claim start wait clock s.q :=
      claimLoop64_eq_claimLoop (start + wait) clock s.q.pending 0 s.q hrange
    simp only [exec64, exec, heq]
  | publish gen payload now => rfl
  | ack messageID => rfl
  | stats => rfl
  | tick now order => rfl

/-- Along every run from a state with sound counts and `maxDeliveryCount` below the
largest `int`, the increment never wraps: the run with the 64-bit increment is the run
with `claimLoop`. -/
theorem execAll64_eq_execAll (ops : List Op) :
    ∀ s : Sys, CountsOk s.q → s.q.maxDeliveryCount < maxInt64 →
      execAll64 ops s = execAll ops s := by
  induction ops with
  | nil => intro s _ _; rfl
  | cons op rest ih =>
    intro s h hmax
    have h1 := exec64_eq_exec op s h hmax
    have h2 : (exec op s).q.maxDeliveryCount = s.q.maxDeliveryCount :=
      execAll_maxDeliveryCount [op] s
    simp only [execAll64, execAll, h1]
    exact ih _ (exec_countsOk op s h) (by rw [h2]; exact hmax)

theorem execAll64_init (name : String) (lease maxDelivery : Int) (ops : List Op)
    (hmax : maxDelivery < maxInt64) :
    execAll64 ops (Sys.init name lease maxDelivery)
      = execAll ops (Sys.init name lease maxDelivery) := by
  apply execAll64_eq_execAll ops _ _ hmax
  constructor <;> intro x hx <;> simp [Sys.init, NewInMemoryQueue] at hx

end Queue
